import Mathlib

/-!
# Verification of the berry lockfile engine

This file embeds `cli/internal/lockfile/berry_lockfile.go` (package `lockfile`)
in Lean and proves properties of the embedded code.

Modelling conventions:

* Go strings and single lines of text are modelled as `List Char` (`Str`).
  Raw lockfile bytes are modelled as the list of their lines: both the decoder
  input (`yaml.Unmarshal`) and the encoder post-processing (`bufio.Scanner`)
  are line-oriented, so the newline framing is kept implicit.
* A Go `map[string]V` is modelled as an association list with unique keys,
  looked up by `mapLookup` and updated by `mapInsert` (overwrite in place).
  Go map iteration order is unspecified; folds over the association list
  iterate in list order, and every theorem below either does not depend on
  that order or takes a hypothesis making the result order-independent.
* A Go pointer `*YarnLockfileEntry` is modelled as `PEntry`: an allocation id
  together with the (immutable) pointee value.  Two pointers denote the same
  instance exactly when their ids are equal.
* `gopkg.in/yaml.v3` is an external library (not part of this repository's
  sources).  Its behaviour on the one Go type the code uses
  (`map[string]*YarnLockfileEntry`, 2-space indent) is modelled line by line:
  block mappings only, plain scalars, map keys emitted in the library's
  sorted order (modelled with the lexicographic order on `List Char`; the
  library uses a digit-aware variant that agrees with it on the inputs used
  in theorems below), struct fields emitted in declaration order, `omitempty`
  honoured for the two dependency maps, `{}` for the empty map.  The
  modelled parser accepts column-0 block mappings with full-line comments and
  blank lines, rejects duplicate keys (as yaml.v3 does), ignores unknown
  struct fields, and reports all syntax failures with one generic message
  (the library's messages vary, but none of them mention lockfile corruption
  or merge conflicts, which is the property theorems rely on).
-/

/-- Go strings / single lines of text, modelled as lists of characters. -/
abbrev Str : Type := List Char

/-- Lookup in the association-list model of a Go map (first binding wins). -/
def mapLookup {α : Type} (m : List (Str × α)) (k : Str) : Option α :=
  match m with
  | [] => none
  | (k', v) :: rest => if k' = k then some v else mapLookup rest k

/-- Update in the association-list model of a Go map: `m[k] = v` overwrites an
existing binding in place and otherwise appends a new one. -/
def mapInsert {α : Type} (m : List (Str × α)) (k : Str) (v : α) : List (Str × α) :=
  match m with
  | [] => [(k, v)]
  | (k', v') :: rest => if k' = k then (k, v) :: rest else (k', v') :: mapInsert rest k v

/-- Models Go `strings.Split(s, ", ")`: the substrings between the
non-overlapping, leftmost-first occurrences of the separator `", "`. -/
def splitCommaSpace : Str → List Str
  | [] => [[]]
  | [c] => [[c]]
  | c :: d :: rest =>
    if c = ',' ∧ d = ' ' then [] :: splitCommaSpace rest
    else
      match splitCommaSpace (d :: rest) with
      | [] => [[c]]
      | p :: ps => (c :: p) :: ps

/-- Models Go `strings.TrimSpace`: removes leading and trailing whitespace
(the inputs of interest only carry ASCII whitespace). -/
def goTrimSpace (s : Str) : Str :=
  ((s.dropWhile Char.isWhitespace).reverse.dropWhile Char.isWhitespace).reverse

/-- Splits a yaml line body at its first `": "` separator into key and value;
`none` when the separator does not occur. -/
def splitColonSpace : Str → Option (Str × Str)
  | [] => none
  | c :: rest =>
    if c = ':' ∧ rest.head? = some ' ' then some ([], rest.tail)
    else (splitColonSpace rest).map (fun p => (c :: p.1, p.2))

/-- Whether `p` is a leading segment of `s` (Go `strings.HasPrefix`). -/
def hasPre : Str → Str → Bool
  | [], _ => true
  | _ :: _, [] => false
  | c :: p, d :: s => if c = d then hasPre p s else false

/-- Whether `pat` occurs as a contiguous segment of `s` (Go `strings.Contains`). -/
def containsSub (s pat : Str) : Bool :=
  if hasPre pat s then true else
    match s with
    | [] => false
    | _ :: rest => containsSub rest pat

/-- Models Go `strings.ReplaceAll(line, "'", "\"")`. -/
def quoteNorm (s : Str) : Str :=
  s.map (fun c => if c = '\'' then '"' else c)

/-- `YarnLockfileEntry`: package information from a yarn lockfile.  The yaml
field names are `version`, `resolved`, `integrity`, `dependencies`,
`optionalDependencies` (the last two carry `omitempty`). -/
structure YarnLockfileEntry where
  version : Str
  resolved : Str
  integrity : Str
  dependencies : List (Str × Str)
  optionalDependencies : List (Str × Str)
deriving DecidableEq

/-- The zero value of `YarnLockfileEntry` (what unmarshalling starts from). -/
def zeroEntry : YarnLockfileEntry := ⟨[], [], [], [], []⟩

/-- A Go pointer `*YarnLockfileEntry`: an allocation id plus the pointee value.
The pointee is never mutated by the code under study, so carrying the value
with the id is sound; two pointers are the same instance iff ids coincide. -/
structure PEntry where
  id : Nat
  val : YarnLockfileEntry
deriving DecidableEq

instance : Inhabited YarnLockfileEntry := ⟨zeroEntry⟩

instance : Inhabited PEntry := ⟨⟨0, zeroEntry⟩⟩

/-- `BerryLockfile`: the canonical map from key to `*YarnLockfileEntry`. -/
abbrev BerryLockfile := List (Str × PEntry)

/-- The entry value stored under a key, ignoring pointer identity. -/
def entryAt (l : BerryLockfile) (k : Str) : Option YarnLockfileEntry :=
  (mapLookup l k).map PEntry.val

/-! ## The decoder -/

/-- Which nested block the 4-space-indented lines currently belong to. -/
inductive DepCtx
  | outer
  | inDeps
  | inOpt
  | inSkip
deriving DecidableEq

/-- Parser state: completed raw entries in document order, the currently open
entry, and the nested-block context. -/
structure ParseSt where
  done : List (Str × YarnLockfileEntry)
  cur : Option (Str × YarnLockfileEntry)
  ctx : DepCtx
deriving DecidableEq

/-- The one generic syntax-failure message used by the modelled yaml parser.
(The library's diagnostics vary with the failure; none of them mention
lockfile corruption or merge conflicts.) -/
def yamlErr : Str := ("yaml: unmarshal errors").data

def fourSp : Str := [' ', ' ', ' ', ' ']

def twoSp : Str := [' ', ' ']

def closeCur : Option (Str × YarnLockfileEntry) → List (Str × YarnLockfileEntry)
  | none => []
  | some kv => [kv]

/-- Processes one line of input: models yaml.v3 parsing of a column-0 block
mapping into `map[string]*YarnLockfileEntry`.  Blank lines and full-line
comments are skipped, duplicate mapping keys are rejected, unknown scalar
struct fields are ignored, unknown nested blocks are skipped.  `none` is a
syntax failure (the library's diagnostics vary; the wrapper `parseLine`
attaches the one modelled message). -/
def parseLine? (st : ParseSt) (ln : Str) : Option ParseSt :=
  if ln.all (· = ' ') then some st
  else if (ln.dropWhile (· = ' ')).head? = some '#' then some st
  else if hasPre fourSp ln then
    if (ln.drop 4).head? = some ' ' then none
    else
      match st.cur, st.ctx with
      | some (k, e), DepCtx.inDeps =>
        match splitColonSpace (ln.drop 4) with
        | some (n, v) =>
          if (e.dependencies.map Prod.fst).contains n then none
          else some ⟨st.done, some (k, { e with dependencies := e.dependencies ++ [(n, v)] }),
            DepCtx.inDeps⟩
        | none => none
      | some (k, e), DepCtx.inOpt =>
        match splitColonSpace (ln.drop 4) with
        | some (n, v) =>
          if (e.optionalDependencies.map Prod.fst).contains n then none
          else some ⟨st.done,
            some (k, { e with optionalDependencies := e.optionalDependencies ++ [(n, v)] }),
            DepCtx.inOpt⟩
        | none => none
      | some _, DepCtx.inSkip => some st
      | _, _ => none
  else if hasPre twoSp ln then
    if (ln.drop 2).head? = some ' ' then none
    else
      match st.cur with
      | none => none
      | some (k, e) =>
        let body := ln.drop 2
        if body = ("dependencies:").data then
          if e.dependencies = [] then some ⟨st.done, some (k, e), DepCtx.inDeps⟩
          else none
        else if body = ("optionalDependencies:").data then
          if e.optionalDependencies = [] then some ⟨st.done, some (k, e), DepCtx.inOpt⟩
          else none
        else
          match splitColonSpace body with
          | some (n, v) =>
            let e' :=
              if n = ("version").data then { e with version := v }
              else if n = ("resolved").data then { e with resolved := v }
              else if n = ("integrity").data then { e with integrity := v }
              else e
            some ⟨st.done, some (k, e'), DepCtx.outer⟩
          | none =>
            if ln.getLast? = some ':' then some ⟨st.done, some (k, e), DepCtx.inSkip⟩
            else none
  else
    if containsSub ln ((": ").data) then none
    else if ln.getLast? = some ':' then
      let k := ln.dropLast
      if (st.done.map Prod.fst).contains k then none
      else
        match st.cur with
        | some (k', e') =>
          if k' = k then none
          else some ⟨st.done ++ [(k', e')], some (k, zeroEntry), DepCtx.outer⟩
        | none => some ⟨st.done, some (k, zeroEntry), DepCtx.outer⟩
    else none

/-- The `Except`-shaped line parser: a failing line yields the generic
message. -/
def parseLine (st : ParseSt) (ln : Str) : Except Str ParseSt :=
  match parseLine? st ln with
  | some st' => .ok st'
  | none => .error yamlErr

/-- Runs the line parser over the remaining lines and closes the final entry. -/
def runParse : List Str → ParseSt → Except Str (List (Str × YarnLockfileEntry))
  | [], st => .ok (st.done ++ closeCur st.cur)
  | ln :: rest, st =>
    match parseLine st ln with
    | .error e => .error e
    | .ok st' => runParse rest st'

def initSt : ParseSt := ⟨[], none, DepCtx.outer⟩

/-- Models `yaml.Unmarshal(contents, &lockfile)` for
`map[string]*YarnLockfileEntry`: the raw entries in document order. -/
def yamlUnmarshalLines (lines : List Str) : Except Str (List (Str × YarnLockfileEntry)) :=
  runParse lines initSt

/-- Allocates one pointer per raw entry starting at id `i`, modelling the
fresh `*YarnLockfileEntry` allocations unmarshalling performs. -/
def allocFrom (i : Nat) : List (Str × YarnLockfileEntry) → BerryLockfile
  | [] => []
  | kv :: rest => (kv.1, ⟨i, kv.2⟩) :: allocFrom (i + 1) rest

/-- One pointer per raw entry, ids in document order. -/
def allocEntries (raw : List (Str × YarnLockfileEntry)) : BerryLockfile :=
  allocFrom 0 raw

/-- `yarnSplitOutEntries`: splits raw keys holding multiple resolutions
(`"a@^1.0.0, a@^1.1.0"`) into one canonical binding per piece, inserting the
same pointer for every piece of a raw key.  (The Go code ranges over a map in
unspecified order; the fold below uses document order.) -/
def yarnSplitOutEntries (lockfile : BerryLockfile) : BerryLockfile :=
  lockfile.foldl (fun acc kv =>
    (splitCommaSpace kv.1).foldl (fun acc2 piece => mapInsert acc2 (goTrimSpace piece) kv.2)
      acc) []

/-- `DecodeBerryLockfile`: unmarshal the contents, wrap any failure in the
generic `could not unmarshal lockfile` message, and split out aliased keys. -/
def DecodeBerryLockfile (lines : List Str) : Except Str BerryLockfile :=
  match yamlUnmarshalLines lines with
  | .error e => .error (("could not unmarshal lockfile: ").data ++ e)
  | .ok raw => .ok (yarnSplitOutEntries (allocEntries raw))

/-! ## The encoder -/

/-- The sorted key order the yaml library emits map keys in. -/
def sortKeys (ks : List Str) : List Str := List.insertionSort (· ≤ ·) ks

/-- The lines of one nested dependency map (`omitempty`: nothing when empty). -/
def yamlDepLines (label : Str) (m : List (Str × Str)) : List Str :=
  if m = [] then []
  else
    (twoSp ++ label ++ [':']) ::
      (sortKeys (m.map Prod.fst)).map (fun n =>
        fourSp ++ n ++ (": ").data ++ (match mapLookup m n with | some v => v | none => []))

/-- The field lines of one entry, in struct declaration order. -/
def yamlEntryLines (e : YarnLockfileEntry) : List Str :=
  (twoSp ++ ("version: ").data ++ e.version) ::
    (twoSp ++ ("resolved: ").data ++ e.resolved) ::
      (twoSp ++ ("integrity: ").data ++ e.integrity) ::
        (yamlDepLines (("dependencies").data) e.dependencies ++
          yamlDepLines (("optionalDependencies").data) e.optionalDependencies)

/-- Models the yaml.v3 encoder (2-space indent) on
`map[string]*YarnLockfileEntry` over the plain-safe scalar class: keys in
sorted order, one block per key, `{}` for the empty map. -/
def yamlEncodeLines (l : BerryLockfile) : List Str :=
  if l = [] then [['{', '}']]
  else
    (sortKeys (l.map Prod.fst)).flatMap (fun k =>
      match mapLookup l k with
      | some p => (k ++ [':']) :: yamlEntryLines p.val
      | none => [])

/-- The fixed header `Encode` writes before the yaml payload (two provenance
comment lines, a blank line, the `__metadata` block, a blank line). -/
def headerLines : List Str :=
  [("# This file is generated by running \"yarn install\" inside your project.").data,
   ("# Manual changes might be lost - proceed with caution!").data,
   [],
   ("__metadata:").data,
   ("  version: 5").data,
   ("  cacheKey: 8").data,
   []]

/-- Models the scanner loop of `Encode`: a top-level line (one that does not
start with a space) is emitted behind an extra blank line, and every line has
its single quotes rewritten to double quotes. -/
def postProcess (lines : List Str) : List Str :=
  lines.flatMap (fun ln => if hasPre [' '] ln then [quoteNorm ln] else [[], quoteNorm ln])

/-- `Encode`: the output lines (header, then post-processed yaml payload).
The writer is a caller-supplied buffer and yaml marshalling of this type
cannot fail, so the modelled encoder is infallible. -/
def Encode (l : BerryLockfile) : List Str :=
  headerLines ++ postProcess (yamlEncodeLines l)

/-- The message `Encode` wraps around a yaml marshal failure (the only place
the code mentions merge conflicts or corruption). -/
def encodeErrHint : Str :=
  ("failed to materialize sub-lockfile. This can happen if your lockfile contains merge conflicts or is somehow corrupted. Please report this if it occurs").data

/-! ## The lockfile operations -/

/-- `ResolvePackage`: probes the canonical map for each candidate key in
order; first hit wins.  The candidate list `yarnPossibleKeys(name, version)`
is produced outside this file's sources and is taken as a parameter. -/
def ResolvePackage (l : BerryLockfile) (possibleKeys : List Str) : Str × Str × Bool :=
  match possibleKeys with
  | [] => ([], [], false)
  | k :: rest =>
    match mapLookup l k with
    | some entry => (k, entry.val.version, true)
    | none => ResolvePackage l rest

/-- `AllDependencies`: copies the entry's `Dependencies` and then its
`OptionalDependencies` into a fresh map; absent key gives an empty map and
`false`. -/
def AllDependencies (l : BerryLockfile) (key : Str) : List (Str × Str) × Bool :=
  match mapLookup l key with
  | none => ([], false)
  | some entry =>
    (entry.val.optionalDependencies.foldl (fun acc p => mapInsert acc p.1 p.2)
      (entry.val.dependencies.foldl (fun acc p => mapInsert acc p.1 p.2) []), true)

/-- `Subgraph`: copies the bindings of the given keys (skipping absent ones)
into a fresh map; never fails. -/
def Subgraph (l : BerryLockfile) (packages : List Str) : Except Str BerryLockfile :=
  .ok (packages.foldl (fun acc key =>
    match mapLookup l key with
    | some entry => mapInsert acc key entry
    | none => acc) [])

/-! ## The plain-safe scalar class

The class of strings on which the yaml model above is faithful: emitted
unquoted and unwrapped by the library, parsed back to themselves, no
whitespace (hence no `", "` alias delimiter and no line wrapping), no
quotes, not resolvable as a non-string yaml scalar. -/

def plainChar (c : Char) : Bool :=
  c.isAlphanum || c ∈ ['@', '^', '.', '/', '-', ':', '~', '+', '_']

def reservedWord (s : Str) : Bool :=
  (["true", "false", "null", "yes", "no", "y", "n", "on", "off", "nan", "inf",
    "infinity"].map String.data).contains s

def plainSafe (s : Str) : Bool :=
  match s with
  | [] => false
  | c :: _ => c.isLower && s.all plainChar && s.getLast? ≠ some ':' && !reservedWord s

def strictSorted : List Str → Bool
  | [] => true
  | [_] => true
  | a :: b :: rest => (decide (a < b)) && strictSorted (b :: rest)

def depsWF (m : List (Str × Str)) : Bool :=
  m.all (fun p => plainSafe p.1 && plainSafe p.2) && strictSorted (m.map Prod.fst)

def entryWF (e : YarnLockfileEntry) : Bool :=
  plainSafe e.version && plainSafe e.resolved && plainSafe e.integrity &&
    depsWF e.dependencies && depsWF e.optionalDependencies

def lockfileWF (l : BerryLockfile) : Bool :=
  l.all (fun kv => plainSafe kv.1 && entryWF kv.2.val) &&
    decide ((l.map Prod.fst).Nodup)

/-- The raw entry the decoder reads back from the `__metadata` header block:
`version: 5` fills the string field `Version`, `cacheKey` is an unknown field
and is dropped. -/
def metaEntry : YarnLockfileEntry := { zeroEntry with version := ("5").data }

/-! ## Basic lemmas about the Go-map model -/

theorem mapLookup_mapInsert {α : Type} (m : List (Str × α)) (k k' : Str) (v : α) :
    mapLookup (mapInsert m k v) k' = if k' = k then some v else mapLookup m k' := by
  induction m with
  | nil =>
    by_cases h : k' = k
    · subst h; simp [mapInsert, mapLookup]
    · simp [mapInsert, mapLookup, h, Ne.symm h]
  | cons hd tl ih =>
    obtain ⟨k0, v0⟩ := hd
    by_cases h0 : k0 = k
    · subst h0
      by_cases h : k' = k0
      · subst h; simp [mapInsert, mapLookup]
      · simp [mapInsert, mapLookup, h, Ne.symm h]
    · by_cases h : k' = k0
      · subst h
        simp [mapInsert, mapLookup, h0]
      · simp [mapInsert, mapLookup, h0, h, Ne.symm h, ih]

theorem mapLookup_append {α : Type} (a b : List (Str × α)) (k : Str) :
    mapLookup (a ++ b) k =
      match mapLookup a k with
      | some v => some v
      | none => mapLookup b k := by
  induction a with
  | nil => simp [mapLookup]
  | cons hd tl ih =>
    obtain ⟨k0, v0⟩ := hd
    by_cases h : k0 = k
    · subst h
      have e1 : mapLookup (((k0, v0) :: tl) ++ b) k0 = some v0 := by simp [mapLookup]
      have e2 : mapLookup ((k0, v0) :: tl) k0 = some v0 := by simp [mapLookup]
      rw [e1, e2]
    · have e1 : mapLookup (((k0, v0) :: tl) ++ b) k = mapLookup (tl ++ b) k := by
        simp [mapLookup, h]
      have e2 : mapLookup ((k0, v0) :: tl) k = mapLookup tl k := by
        simp [mapLookup, h]
      rw [e1, e2, ih]

theorem mapLookup_eq_none_iff {α : Type} (m : List (Str × α)) (k : Str) :
    mapLookup m k = none ↔ k ∉ m.map Prod.fst := by
  induction m with
  | nil => simp [mapLookup]
  | cons hd tl ih =>
    obtain ⟨k0, v0⟩ := hd
    by_cases h : k0 = k
    · subst h
      have e : mapLookup ((k0, v0) :: tl) k0 = some v0 := by simp [mapLookup]
      rw [e]
      simp only [List.map_cons, List.mem_cons]
      exact iff_of_false (Option.some_ne_none v0) (fun hc => hc (Or.inl trivial))
    · have e : mapLookup ((k0, v0) :: tl) k = mapLookup tl k := by simp [mapLookup, h]
      rw [e, ih]
      simp only [List.map_cons, List.mem_cons, not_or]
      exact (and_iff_right (Ne.symm h)).symm

theorem mapLookup_reverse_of_nodup {α : Type} (m : List (Str × α))
    (h : (m.map Prod.fst).Nodup) (k : Str) :
    mapLookup m.reverse k = mapLookup m k := by
  induction m with
  | nil => rfl
  | cons hd tl ih =>
    obtain ⟨k0, v0⟩ := hd
    simp only [List.map_cons, List.nodup_cons] at h
    rw [List.reverse_cons, mapLookup_append, ih h.2]
    by_cases hk : k0 = k
    · subst hk
      have h0 : mapLookup tl k0 = none := (mapLookup_eq_none_iff tl k0).2 h.1
      rw [h0]
      simp [mapLookup]
    · cases hl : mapLookup tl k <;> simp [mapLookup, hk, hl]

theorem mapLookup_foldl_insert {α : Type} (ps acc : List (Str × α)) (k : Str) :
    mapLookup (ps.foldl (fun a p => mapInsert a p.1 p.2) acc) k =
      match mapLookup ps.reverse k with
      | some v => some v
      | none => mapLookup acc k := by
  induction ps generalizing acc with
  | nil => simp [mapLookup]
  | cons hd tl ih =>
    obtain ⟨k0, v0⟩ := hd
    simp only [List.foldl_cons, List.reverse_cons]
    rw [ih, mapLookup_append]
    cases h : mapLookup tl.reverse k with
    | some v => rfl
    | none =>
      simp only [mapLookup_mapInsert]
      by_cases hk : k = k0
      · simp [mapLookup, hk]
      · simp [mapLookup, hk, Ne.symm hk]

/-! ## Resolver, dependency accessor, subgraph -/

theorem resolvePackage_skip (l : BerryLockfile) (ks : List Str) (k : Str)
    (h : mapLookup l k = none) : ResolvePackage l (k :: ks) = ResolvePackage l ks := by
  simp [ResolvePackage, h]

/-- C3: the resolver probes the externally supplied candidates in order and
returns the first hit; with no hit (or no candidates) it reports
`found = false` rather than an error. -/
theorem C3_resolution_order :
    (∀ (l : BerryLockfile) (ks1 ks2 : List Str) (k : Str) (p : PEntry),
      (∀ k' ∈ ks1, mapLookup l k' = none) → mapLookup l k = some p →
      ResolvePackage l (ks1 ++ k :: ks2) = (k, p.val.version, true)) ∧
    (∀ (l : BerryLockfile) (ks : List Str),
      (∀ k' ∈ ks, mapLookup l k' = none) → ResolvePackage l ks = ([], [], false)) := by
  constructor
  · intro l ks1 ks2 k p h1 h2
    induction ks1 with
    | nil => simp [ResolvePackage, h2]
    | cons hd tl ih =>
      have hhd : mapLookup l hd = none := h1 hd (List.mem_cons_self hd tl)
      rw [List.cons_append, resolvePackage_skip l _ hd hhd]
      exact ih (fun k' hk' => h1 k' (List.mem_cons_of_mem hd hk'))
  · intro l ks h
    induction ks with
    | nil => rfl
    | cons hd tl ih =>
      rw [resolvePackage_skip l tl hd (h hd (List.mem_cons_self hd tl))]
      exact ih (fun k' hk' => h k' (List.mem_cons_of_mem hd hk'))

theorem C3_witness :
    ResolvePackage [(("k2").data, ⟨0, zeroEntry⟩)] [("k1").data, ("k2").data] =
      (("k2").data, [], true) ∧
    ResolvePackage [(("k2").data, ⟨0, zeroEntry⟩)] [] = ([], [], false) := by
  constructor
  · exact C3_resolution_order.1 [(("k2").data, ⟨0, zeroEntry⟩)] [("k1").data] []
      (("k2").data) ⟨0, zeroEntry⟩ (by decide) (by decide)
  · exact C3_resolution_order.2 [(("k2").data, ⟨0, zeroEntry⟩)] [] (by decide)

/-- The subgraph fold, rewritten over the list of present bindings. -/
theorem subgraph_fold_eq (l : BerryLockfile) (packages : List Str) (acc : BerryLockfile) :
    packages.foldl (fun acc key =>
        match mapLookup l key with
        | some entry => mapInsert acc key entry
        | none => acc) acc =
      (packages.filterMap (fun key => (mapLookup l key).map (fun e => (key, e)))).foldl
        (fun a p => mapInsert a p.1 p.2) acc := by
  induction packages generalizing acc with
  | nil => rfl
  | cons hd tl ih =>
    cases h : mapLookup l hd <;> simp [h, ih]

theorem lookup_reverse_filterMap (l : BerryLockfile) (packages : List Str) (k : Str) :
    mapLookup ((packages.filterMap
        (fun key => (mapLookup l key).map (fun e => (key, e)))).reverse) k =
      if k ∈ packages then mapLookup l k else none := by
  induction packages with
  | nil => simp [mapLookup]
  | cons hd tl ih =>
    by_cases hmem : k ∈ tl
    · cases h : mapLookup l hd with
      | none =>
        simp only [List.filterMap_cons, h, Option.map_none']
        simp [ih, hmem, List.mem_cons]
      | some e =>
        simp only [List.filterMap_cons, h, Option.map_some', List.reverse_cons, mapLookup_append]
        rw [ih]
        simp only [hmem, if_true]
        cases hl : mapLookup l k with
        | some v => simp [List.mem_cons, hmem]
        | none => by_cases hk : hd = k <;> simp_all [mapLookup, List.mem_cons]
    · by_cases hk : hd = k
      · subst hk
        cases h : mapLookup l hd with
        | none =>
          simp only [List.filterMap_cons, h, Option.map_none']
          rw [ih]
          simp [hmem, h]
        | some e =>
          simp only [List.filterMap_cons, h, Option.map_some', List.reverse_cons, mapLookup_append]
          rw [ih]
          simp [hmem, mapLookup, h]
      · cases h : mapLookup l hd with
        | none =>
          simp only [List.filterMap_cons, h, Option.map_none']
          rw [ih]
          simp [List.mem_cons, hmem, Ne.symm hk]
        | some e =>
          simp only [List.filterMap_cons, h, Option.map_some', List.reverse_cons, mapLookup_append]
          rw [ih]
          simp [List.mem_cons, hmem, Ne.symm hk, mapLookup, hk]

/-- C4: `Subgraph` never fails and returns a map holding exactly the keys that
are both requested and present, bound to the same shared entry instances as
in the source (`mapLookup` returns the `PEntry`, id included); the empty
request yields the empty lockfile. -/
theorem C4_subgraph_filtering :
    ∀ (l : BerryLockfile) (packages : List Str),
      ∃ out, Subgraph l packages = Except.ok out ∧
        (∀ k, mapLookup out k = if k ∈ packages then mapLookup l k else none) ∧
        (packages = [] → out = []) := by
  intro l packages
  refine ⟨_, rfl, fun k => ?_, fun hp => by subst hp; rfl⟩
  show mapLookup (packages.foldl _ []) k = _
  rw [subgraph_fold_eq, mapLookup_foldl_insert, lookup_reverse_filterMap]
  by_cases hmem : k ∈ packages
  · simp only [hmem, if_true]
    cases mapLookup l k <;> rfl
  · simp [hmem, mapLookup]

theorem C4_witness :
    ∃ out,
      Subgraph [(("k1").data, ⟨0, zeroEntry⟩), (("k2").data, ⟨1, zeroEntry⟩)]
          [("k1").data, ("k3").data] = Except.ok out ∧
        (∀ k, mapLookup out k =
          if k ∈ [("k1").data, ("k3").data] then
            mapLookup [(("k1").data, ⟨0, zeroEntry⟩), (("k2").data, ⟨1, zeroEntry⟩)] k
          else none) ∧
        ([("k1").data, ("k3").data] = ([] : List Str) → out = []) :=
  C4_subgraph_filtering [(("k1").data, ⟨0, zeroEntry⟩), (("k2").data, ⟨1, zeroEntry⟩)]
    [("k1").data, ("k3").data]

/-- The dependency union `AllDependencies` builds, characterised per name. -/
theorem allDependencies_lookup (e : PEntry) (l : BerryLockfile) (key : Str)
    (hl : mapLookup l key = some e)
    (hd : (e.val.dependencies.map Prod.fst).Nodup)
    (ho : (e.val.optionalDependencies.map Prod.fst).Nodup) (n : Str) :
    mapLookup (AllDependencies l key).1 n =
      match mapLookup e.val.optionalDependencies n with
      | some v => some v
      | none => mapLookup e.val.dependencies n := by
  have hfold : (AllDependencies l key).1 =
      e.val.optionalDependencies.foldl (fun acc p => mapInsert acc p.1 p.2)
        (e.val.dependencies.foldl (fun acc p => mapInsert acc p.1 p.2) []) := by
    simp [AllDependencies, hl]
  rw [hfold, mapLookup_foldl_insert, mapLookup_foldl_insert,
    mapLookup_reverse_of_nodup _ ho, mapLookup_reverse_of_nodup _ hd]
  cases mapLookup e.val.optionalDependencies n <;> cases mapLookup e.val.dependencies n <;>
    simp [mapLookup]

/-- C5: for a present key, `AllDependencies` reports `found = true` and the
union of the two dependency maps (optional bindings taking the slot on
collision); for an absent key it reports an empty map and `found = false`
(never an error). -/
theorem C5_dependency_union :
    (∀ (l : BerryLockfile) (key : Str),
      mapLookup l key = none → AllDependencies l key = ([], false)) ∧
    (∀ (l : BerryLockfile) (key : Str) (e : PEntry),
      mapLookup l key = some e →
      (e.val.dependencies.map Prod.fst).Nodup →
      (e.val.optionalDependencies.map Prod.fst).Nodup →
      (AllDependencies l key).2 = true ∧
      ∀ n, mapLookup (AllDependencies l key).1 n =
        match mapLookup e.val.optionalDependencies n with
        | some v => some v
        | none => mapLookup e.val.dependencies n) := by
  constructor
  · intro l key h
    simp [AllDependencies, h]
  · intro l key e hl hd ho
    refine ⟨by simp [AllDependencies, hl], fun n => allDependencies_lookup e l key hl hd ho n⟩

theorem C5_witness :
    AllDependencies [] ("a").data = ([], false) ∧
    ((AllDependencies
        [(("a").data, ⟨0, ⟨[], [], [],
          [(("x").data, ("v1").data)], [(("z").data, ("v2").data)]⟩⟩)] ("a").data).2 = true ∧
      ∀ n, mapLookup (AllDependencies
        [(("a").data, ⟨0, ⟨[], [], [],
          [(("x").data, ("v1").data)], [(("z").data, ("v2").data)]⟩⟩)] ("a").data).1 n =
        match mapLookup [(("z").data, ("v2").data)] n with
        | some v => some v
        | none => mapLookup [(("x").data, ("v1").data)] n) := by
  constructor
  · exact C5_dependency_union.1 [] (("a").data) (by decide)
  · exact C5_dependency_union.2 _ (("a").data) ⟨0, ⟨[], [], [],
      [(("x").data, ("v1").data)], [(("z").data, ("v2").data)]⟩⟩ (by decide) (by decide)
      (by decide)

/-- C10: on a name listed in both dependency maps, `AllDependencies` still
succeeds and the optional specifier wins (the optional pass writes second). -/
theorem C10_collision_optional_wins :
    ∀ (l : BerryLockfile) (key : Str) (e : PEntry) (n : Str) (v w : Str),
      mapLookup l key = some e →
      (e.val.dependencies.map Prod.fst).Nodup →
      (e.val.optionalDependencies.map Prod.fst).Nodup →
      mapLookup e.val.dependencies n = some w →
      mapLookup e.val.optionalDependencies n = some v →
      (AllDependencies l key).2 = true ∧
        mapLookup (AllDependencies l key).1 n = some v := by
  intro l key e n v w hl hd ho hw hv
  refine ⟨by simp [AllDependencies, hl], ?_⟩
  rw [allDependencies_lookup e l key hl hd ho n, hv]

theorem C10_witness :
    (AllDependencies
        [(("a").data, ⟨0, ⟨[], [], [],
          [(("x").data, ("v1").data)], [(("x").data, ("v2").data)]⟩⟩)] ("a").data).2 = true ∧
      mapLookup (AllDependencies
        [(("a").data, ⟨0, ⟨[], [], [],
          [(("x").data, ("v1").data)], [(("x").data, ("v2").data)]⟩⟩)] ("a").data).1
        (("x").data) = some (("v2").data) :=
  C10_collision_optional_wins _ (("a").data)
    ⟨0, ⟨[], [], [], [(("x").data, ("v1").data)], [(("x").data, ("v2").data)]⟩⟩
    (("x").data) (("v2").data) (("v1").data)
    (by decide) (by decide) (by decide) (by decide) (by decide)

/-! ## Encoder output format -/

/-- A line that starts a new top-level block: nonempty, no leading space. -/
def topLevelLine (ln : Str) : Bool :=
  match ln with
  | [] => false
  | c :: _ => decide (c ≠ ' ')

/-- Adjacency relation of the encoder output: a top-level line is immediately
preceded by a blank line, and no two adjacent lines are both blank (so the
blank line before a top-level block is exactly one). -/
def sepRel (a b : Str) : Prop :=
  (topLevelLine b = true → a = []) ∧ ¬(a = [] ∧ b = [])

theorem postProcess_cons (ln : Str) (rest : List Str) :
    postProcess (ln :: rest) =
      (if hasPre [' '] ln then [quoteNorm ln] else [[], quoteNorm ln]) ++ postProcess rest := by
  simp [postProcess]

theorem quoteNorm_ne_nil (s : Str) (h : s ≠ []) : quoteNorm s ≠ [] := by
  cases s with
  | nil => exact absurd rfl h
  | cons c cs => simp [quoteNorm]

theorem quoteNorm_no_quote (s : Str) : ('\'' : Char) ∉ quoteNorm s := by
  intro hmem
  rw [quoteNorm, List.mem_map] at hmem
  obtain ⟨c, _, he⟩ := hmem
  by_cases h : c = '\''
  · rw [if_pos h] at he
    exact absurd he (by decide)
  · rw [if_neg h] at he
    exact h he

theorem quoteNorm_head_space (ln : Str) (h : hasPre [' '] ln = true) :
    topLevelLine (quoteNorm ln) = false := by
  cases ln with
  | nil => simp [hasPre] at h
  | cons c cs =>
    have hc : c = ' ' := by
      by_cases h' : (' ' : Char) = c
      · exact h'.symm
      · simp [hasPre, h'] at h
    subst hc
    simp [quoteNorm, topLevelLine]

theorem postProcess_head_not_top (lines : List Str) (y : Str)
    (h : (postProcess lines).head? = some y) : topLevelLine y = false := by
  cases lines with
  | nil => simp [postProcess] at h
  | cons ln rest =>
    rw [postProcess_cons] at h
    by_cases hp : hasPre [' '] ln
    · rw [if_pos hp] at h
      simp only [List.cons_append, List.head?_cons, Option.some_inj] at h
      rw [← h]
      exact quoteNorm_head_space ln hp
    · rw [if_neg hp] at h
      simp only [List.cons_append, List.head?_cons, Option.some_inj] at h
      rw [← h]
      rfl

theorem postProcess_chain (lines : List Str) (h : ∀ ln ∈ lines, ln ≠ []) :
    List.Chain' sepRel (postProcess lines) := by
  induction lines with
  | nil => simp [postProcess]
  | cons ln rest ih =>
    have hln : ln ≠ [] := h ln (List.mem_cons_self ln rest)
    have hrest : ∀ x ∈ rest, x ≠ [] := fun x hx => h x (List.mem_cons_of_mem ln hx)
    have hq : quoteNorm ln ≠ [] := quoteNorm_ne_nil ln hln
    rw [postProcess_cons, List.chain'_append]
    refine ⟨?_, ih hrest, ?_⟩
    · by_cases hp : hasPre [' '] ln
      · simp [hp]
      · rw [if_neg hp]
        refine List.chain'_cons.2 ⟨⟨fun _ => rfl, fun hc => hq hc.2⟩, List.chain'_singleton _⟩
    · intro x hx y hy
      have hxq : x = quoteNorm ln := by
        by_cases hp : hasPre [' '] ln
        · rw [if_pos hp] at hx
          exact (by simpa using hx : quoteNorm ln = x).symm
        · rw [if_neg hp] at hx
          exact (by simpa using hx : quoteNorm ln = x).symm
      subst hxq
      have hyt : topLevelLine y = false := postProcess_head_not_top rest y hy
      exact ⟨fun ht => absurd ht (by rw [hyt]; decide), fun hc => hq hc.1⟩

theorem yamlDepLines_ne_nil (label : Str) (m : List (Str × Str)) :
    ∀ ln ∈ yamlDepLines label m, ln ≠ [] := by
  intro ln hln
  rw [yamlDepLines] at hln
  by_cases h : m = []
  · simp [h] at hln
  · rw [if_neg h] at hln
    rcases List.mem_cons.1 hln with h1 | h1
    · subst h1; simp [twoSp]
    · rw [List.mem_map] at h1
      obtain ⟨n, _, he⟩ := h1
      rw [← he]
      simp [fourSp]

theorem yamlEntryLines_ne_nil (e : YarnLockfileEntry) :
    ∀ ln ∈ yamlEntryLines e, ln ≠ [] := by
  intro ln hln
  rw [yamlEntryLines] at hln
  rcases List.mem_cons.1 hln with h1 | h1
  · subst h1; simp [twoSp]
  · rcases List.mem_cons.1 h1 with h2 | h2
    · subst h2; simp [twoSp]
    · rcases List.mem_cons.1 h2 with h3 | h3
      · subst h3; simp [twoSp]
      · rcases List.mem_append.1 h3 with h4 | h4
        · exact yamlDepLines_ne_nil _ _ ln h4
        · exact yamlDepLines_ne_nil _ _ ln h4

theorem yamlEncodeLines_ne_nil (l : BerryLockfile) :
    ∀ ln ∈ yamlEncodeLines l, ln ≠ [] := by
  intro ln hln
  rw [yamlEncodeLines] at hln
  by_cases h : l = []
  · rw [if_pos h] at hln
    simp at hln
    subst hln
    decide
  · rw [if_neg h, List.mem_flatMap] at hln
    obtain ⟨k, _, hmem⟩ := hln
    cases hl : mapLookup l k with
    | none => rw [hl] at hmem; simp at hmem
    | some p =>
      rw [hl] at hmem
      rcases List.mem_cons.1 hmem with h1 | h1
      · subst h1
        intro hc
        exact absurd (List.append_eq_nil.1 hc).2 (by decide)
      · exact yamlEntryLines_ne_nil p.val ln h1

theorem sortKeys_perm (ks : List Str) : (sortKeys ks).Perm ks :=
  List.perm_insertionSort _ ks

theorem sortKeys_ne_nil (ks : List Str) (h : ks ≠ []) : sortKeys ks ≠ [] := by
  intro hc
  apply h
  have hp := sortKeys_perm ks
  rw [hc] at hp
  exact (hp.symm).eq_nil

theorem plainSafe_cons (s : Str) (h : plainSafe s = true) :
    ∃ c cs, s = c :: cs ∧ c.isLower = true := by
  cases s with
  | nil => simp [plainSafe] at h
  | cons c cs =>
    refine ⟨c, cs, rfl, ?_⟩
    simp only [plainSafe, Bool.and_eq_true] at h
    exact h.1.1.1

theorem lockfileWF_key_plainSafe (l : BerryLockfile) (hwf : lockfileWF l = true)
    (k : Str) (hk : k ∈ l.map Prod.fst) : plainSafe k = true := by
  rw [lockfileWF, Bool.and_eq_true] at hwf
  rw [List.mem_map] at hk
  obtain ⟨kv, hkv, he⟩ := hk
  have hall := (List.all_eq_true.1 hwf.1) kv hkv
  rw [Bool.and_eq_true] at hall
  rw [← he]
  exact hall.1

theorem encode_head_blank (l : BerryLockfile) (hwf : lockfileWF l = true) :
    (postProcess (yamlEncodeLines l)).head? = some [] := by
  rw [yamlEncodeLines]
  by_cases h : l = []
  · rw [if_pos h]
    rfl
  · rw [if_neg h]
    have hks : l.map Prod.fst ≠ [] := by
      intro hc
      exact h (List.map_eq_nil_iff.1 hc)
    obtain ⟨k0, krest, hsk⟩ : ∃ k0 krest, sortKeys (l.map Prod.fst) = k0 :: krest := by
      cases hsk : sortKeys (l.map Prod.fst) with
      | nil => exact absurd hsk (sortKeys_ne_nil _ hks)
      | cons a b => exact ⟨a, b, rfl⟩
    rw [hsk, List.flatMap_cons]
    have hk0 : k0 ∈ l.map Prod.fst := by
      refine (sortKeys_perm (l.map Prod.fst)).subset ?_
      rw [hsk]
      exact List.mem_cons_self k0 krest
    obtain ⟨p, hl⟩ : ∃ p, mapLookup l k0 = some p := by
      cases hll : mapLookup l k0 with
      | none => exact absurd hk0 ((mapLookup_eq_none_iff l k0).1 hll)
      | some p => exact ⟨p, rfl⟩
    simp only [hl]
    have hps := lockfileWF_key_plainSafe l hwf k0 hk0
    obtain ⟨c, cs, hc, hlow⟩ := plainSafe_cons k0 hps
    have hcsp : ¬((' ' : Char) = c) := by
      intro hcc
      rw [← hcc] at hlow
      exact absurd hlow (by decide)
    have hnosp : hasPre [' '] (k0 ++ [':']) = false := by
      rw [hc, List.cons_append]
      simp only [hasPre]
      rw [if_neg hcsp]
    rw [List.cons_append, postProcess_cons, hnosp]
    rfl

/-- C6: on well-formed lockfiles the encoder output is the fixed header
(provenance comments, blank, `__metadata` with `version: 5` / `cacheKey: 8`,
blank) followed by the post-processed yaml payload, in which the first line is
blank, every top-level block line is immediately preceded by a blank line with
no two adjacent blank lines (so: exactly one), and single quotes of the
generically serialized lines appear as double quotes (position by position),
no single quote surviving. -/
theorem C6_output_format (l : BerryLockfile) (hwf : lockfileWF l = true) :
    Encode l = headerLines ++ postProcess (yamlEncodeLines l) ∧
    (postProcess (yamlEncodeLines l)).head? = some [] ∧
    List.Chain' sepRel (postProcess (yamlEncodeLines l)) ∧
    (∀ ln ∈ postProcess (yamlEncodeLines l), ('\'' : Char) ∉ ln) ∧
    (∀ ln ∈ yamlEncodeLines l, ∀ i : Nat, (quoteNorm ln)[i]? =
      (ln[i]?).map (fun c => if c = '\'' then '"' else c)) := by
  refine ⟨rfl, encode_head_blank l hwf, postProcess_chain _ (yamlEncodeLines_ne_nil l), ?_, ?_⟩
  · intro ln hln
    rw [postProcess, List.mem_flatMap] at hln
    obtain ⟨src, _, hmem⟩ := hln
    by_cases hp : hasPre [' '] src
    · rw [if_pos hp] at hmem
      have : ln = quoteNorm src := by simpa using hmem
      rw [this]
      exact quoteNorm_no_quote src
    · rw [if_neg hp] at hmem
      rcases List.mem_cons.1 hmem with h1 | h1
      · subst h1
        simp
      · have : ln = quoteNorm src := by simpa using h1
        rw [this]
        exact quoteNorm_no_quote src
  · intro ln _ i
    simp [quoteNorm, List.getElem?_map]

/-- A concrete well-formed two-entry lockfile used by several witnesses. -/
def wfEntry : YarnLockfileEntry :=
  ⟨("v1.2.3").data, ("url.example/a").data, ("sha512-abc").data,
    [(("dep-a").data, ("v1.0.0").data)], [(("opt-b").data, ("v2.0.0").data)]⟩

def wfLock : BerryLockfile :=
  [(("b@^2.0.0").data, ⟨0, wfEntry⟩), (("a@^1.0.0").data, ⟨1, wfEntry⟩)]

theorem C6_witness :
    lockfileWF wfLock = true ∧
      Encode wfLock = headerLines ++ postProcess (yamlEncodeLines wfLock) ∧
      (postProcess (yamlEncodeLines wfLock)).head? = some [] :=
  ⟨by decide, (C6_output_format wfLock (by decide)).1, (C6_output_format wfLock (by decide)).2.1⟩

/-! ## Determinism and emission order of the encoder -/

theorem mem_map_fst_iff_lookup {α : Type} (m : List (Str × α)) (k : Str) :
    k ∈ m.map Prod.fst ↔ mapLookup m k ≠ none := by
  rw [Ne, mapLookup_eq_none_iff, not_not]

theorem sortKeys_eq_of_perm (ks1 ks2 : List Str) (h : ks1.Perm ks2) :
    sortKeys ks1 = sortKeys ks2 := by
  refine List.eq_of_perm_of_sorted ?_ (List.sorted_insertionSort _ ks1)
    (List.sorted_insertionSort _ ks2)
  exact ((sortKeys_perm ks1).trans h).trans (sortKeys_perm ks2).symm

/-- C8 corrected: the encoder's output is a function of the key-to-entry
binding alone.  On two canonical maps with the same bindings it is
byte-identical regardless of insertion order, and the block order it emits is
the yaml library's sorted key order (the Go canonical map is an unordered
`map`, so there is no insertion order to preserve). -/
theorem C8_sorted_deterministic (l1 l2 : BerryLockfile)
    (h1 : (l1.map Prod.fst).Nodup) (h2 : (l2.map Prod.fst).Nodup)
    (hsame : ∀ k, mapLookup l1 k = mapLookup l2 k) :
    Encode l1 = Encode l2 ∧ List.Sorted (· ≤ ·) (sortKeys (l1.map Prod.fst)) := by
  refine ⟨?_, List.sorted_insertionSort _ _⟩
  have hperm : (l1.map Prod.fst).Perm (l2.map Prod.fst) := by
    rw [List.perm_ext_iff_of_nodup h1 h2]
    intro k
    rw [mem_map_fst_iff_lookup, mem_map_fst_iff_lookup, hsame k]
  have hnil : l1 = [] ↔ l2 = [] := by
    constructor
    · intro h
      subst h
      cases l2 with
      | nil => rfl
      | cons hd tl =>
        have := hsame hd.1
        simp [mapLookup] at this
    · intro h
      subst h
      cases l1 with
      | nil => rfl
      | cons hd tl =>
        have := hsame hd.1
        simp [mapLookup] at this
  have hyaml : yamlEncodeLines l1 = yamlEncodeLines l2 := by
    by_cases h : l1 = []
    · rw [yamlEncodeLines, yamlEncodeLines, if_pos h, if_pos (hnil.1 h)]
    · rw [yamlEncodeLines, yamlEncodeLines, if_neg h, if_neg (fun hc => h (hnil.2 hc))]
      rw [sortKeys_eq_of_perm _ _ hperm]
      have hfn : (fun k => match mapLookup l1 k with
          | some p => (k ++ [':']) :: yamlEntryLines p.val
          | none => ([] : List Str)) = (fun k => match mapLookup l2 k with
          | some p => (k ++ [':']) :: yamlEntryLines p.val
          | none => ([] : List Str)) := by
        funext k
        rw [hsame k]
      rw [hfn]
  rw [Encode, Encode, hyaml]

/-- The two insertion orders used by the C8 counterexample and witness. -/
def ordL1 : BerryLockfile := [(("b").data, ⟨0, wfEntry⟩), (("a").data, ⟨1, wfEntry⟩)]

def ordL2 : BerryLockfile := [(("a").data, ⟨1, wfEntry⟩), (("b").data, ⟨0, wfEntry⟩)]

/-- C8 counterexample: with insertion order `b` then `a`, the first package
block the encoder emits is `a:` (sorted order), not `b:` (insertion order),
and the output is identical to that of the opposite insertion order; package
blocks are therefore not emitted in insertion order. -/
theorem C8_counterexample :
    ordL1.map Prod.fst = [("b").data, ("a").data] ∧
    (postProcess (yamlEncodeLines ordL1)).get? 1 = some (("a:").data) ∧
    Encode ordL1 = Encode ordL2 := by
  refine ⟨rfl, by decide, ?_⟩
  decide

theorem ordL_same_lookup : ∀ k, mapLookup ordL1 k = mapLookup ordL2 k := by
  intro k
  by_cases hb : ("b").data = k
  · subst hb
    decide
  · by_cases ha : ("a").data = k
    · subst ha
      decide
    · simp [ordL1, ordL2, mapLookup, hb, ha]

theorem C8_witness :
    Encode ordL1 = Encode ordL2 ∧ List.Sorted (· ≤ ·) (sortKeys (ordL1.map Prod.fst)) :=
  C8_sorted_deterministic ordL1 ordL2 (by decide) (by decide) ordL_same_lookup

/-! ## Alias splitting -/

/-- The canonical pieces a raw key is split into: split on `", "`, trimmed. -/
def piecesOf (k : Str) : List Str := (splitCommaSpace k).map goTrimSpace

/-- Raw bindings whose canonical pieces do not overlap. -/
def disjointPieces {β : Type} (a b : Str × β) : Prop :=
  ∀ p ∈ piecesOf a.1, p ∉ piecesOf b.1

instance {β : Type} (a b : Str × β) : Decidable (disjointPieces a b) := by
  unfold disjointPieces
  infer_instance

theorem disjointPieces_symm {β : Type} : Symmetric (@disjointPieces β) := by
  intro a b h p hpb hpa
  exact h p hpa hpb

theorem yarnSplit_fold_eq (l : BerryLockfile) (acc : BerryLockfile) :
    l.foldl (fun acc kv => (splitCommaSpace kv.1).foldl
        (fun acc2 piece => mapInsert acc2 (goTrimSpace piece) kv.2) acc) acc =
      (l.flatMap (fun kv => (splitCommaSpace kv.1).map (fun p => (goTrimSpace p, kv.2)))).foldl
        (fun a p => mapInsert a p.1 p.2) acc := by
  induction l generalizing acc with
  | nil => rfl
  | cons hd tl ih =>
    simp only [List.foldl_cons, List.flatMap_cons, List.foldl_append]
    rw [ih, List.foldl_map]

theorem mapLookup_of_mem_of_unique {α : Type} (ps : List (Str × α)) (k : Str) (v : α)
    (hmem : (k, v) ∈ ps) (huniq : ∀ q ∈ ps, q.1 = k → q.2 = v) :
    mapLookup ps k = some v := by
  induction ps with
  | nil => cases hmem
  | cons hd tl ih =>
    obtain ⟨k0, v0⟩ := hd
    by_cases h : k0 = k
    · have hv : v0 = v := huniq (k0, v0) (List.mem_cons_self _ _) h
      simp [mapLookup, h, hv]
    · have hm : (k, v) ∈ tl := by
        rcases List.mem_cons.1 hmem with h1 | h1
        · exact absurd (congrArg Prod.fst h1).symm h
        · exact h1
      simp only [mapLookup, h, if_false]
      exact ih hm (fun q hq => huniq q (List.mem_cons_of_mem _ hq))

theorem mem_allocFrom_exists (raw : List (Str × YarnLockfileEntry)) (n : Nat)
    (q : Str × PEntry) (hq : q ∈ allocFrom n raw) :
    ∃ kv ∈ raw, q.1 = kv.1 ∧ q.2.val = kv.2 := by
  induction raw generalizing n with
  | nil => cases hq
  | cons kv rest ih =>
    rw [allocFrom] at hq
    rcases List.mem_cons.1 hq with h1 | h1
    · exact ⟨kv, List.mem_cons_self _ _, by rw [h1], by rw [h1]⟩
    · obtain ⟨kv', hkv', h2, h3⟩ := ih (n + 1) h1
      exact ⟨kv', List.mem_cons_of_mem _ hkv', h2, h3⟩

theorem allocFrom_pairwise (raw : List (Str × YarnLockfileEntry)) (n : Nat)
    (h : raw.Pairwise disjointPieces) :
    (allocFrom n raw).Pairwise disjointPieces := by
  induction raw generalizing n with
  | nil => exact List.Pairwise.nil
  | cons kv rest ih =>
    rcases List.pairwise_cons.1 h with ⟨hhd, htl⟩
    rw [allocFrom]
    refine List.pairwise_cons.2 ⟨?_, ih (n + 1) htl⟩
    intro b hb
    obtain ⟨kv', hkv', h1, _⟩ := mem_allocFrom_exists rest (n + 1) b hb
    intro p hp
    rw [h1]
    exact hhd kv' hkv' p hp

/-- C1 amended: for every input that unmarshals, and whose raw keys have
pairwise disjoint canonical pieces (true of real lockfiles, where the raw
keys partition the specifiers), decoding splits each raw key on `", "`, trims
each piece, and binds every piece of a raw key to that raw key's single
shared `PEntry` (same allocation id, not a field-equal copy). -/
theorem C1_alias_splitting_amended (lines : List Str) (raw : List (Str × YarnLockfileEntry))
    (hok : yamlUnmarshalLines lines = Except.ok raw)
    (hdisj : raw.Pairwise disjointPieces) :
    ∃ m, DecodeBerryLockfile lines = Except.ok m ∧
      ∀ kv ∈ allocEntries raw, ∀ piece ∈ splitCommaSpace kv.1,
        mapLookup m (goTrimSpace piece) = some kv.2 := by
  refine ⟨yarnSplitOutEntries (allocEntries raw), by simp [DecodeBerryLockfile, hok], ?_⟩
  intro kv hkv piece hpiece
  have halloc : (allocEntries raw).Pairwise disjointPieces := allocFrom_pairwise raw 0 hdisj
  rw [yarnSplitOutEntries, yarnSplit_fold_eq, mapLookup_foldl_insert]
  set pairs := (allocEntries raw).flatMap
    (fun kv => (splitCommaSpace kv.1).map (fun p => (goTrimSpace p, kv.2))) with hpairs
  have hmem : (goTrimSpace piece, kv.2) ∈ pairs := by
    rw [hpairs, List.mem_flatMap]
    exact ⟨kv, hkv, List.mem_map_of_mem _ hpiece⟩
  have huniq : ∀ q ∈ pairs, q.1 = goTrimSpace piece → q.2 = kv.2 := by
    intro q hq hq1
    rw [hpairs, List.mem_flatMap] at hq
    obtain ⟨kv', hkv', hqi⟩ := hq
    rw [List.mem_map] at hqi
    obtain ⟨piece', hpiece', hqe⟩ := hqi
    by_cases hsame : kv' = kv
    · rw [← hqe, hsame]
    · exfalso
      have hdis : disjointPieces kv kv' :=
        List.Pairwise.forall disjointPieces_symm halloc hkv hkv' (fun hc => hsame hc.symm)
      have hp1 : goTrimSpace piece ∈ piecesOf kv.1 :=
        List.mem_map_of_mem _ hpiece
      have hp2 : goTrimSpace piece ∈ piecesOf kv'.1 := by
        rw [piecesOf, List.mem_map]
        refine ⟨piece', hpiece', ?_⟩
        have := congrArg Prod.fst hqe
        simpa using (this.trans hq1)
      exact hdis _ hp1 hp2
  have := mapLookup_of_mem_of_unique pairs.reverse (goTrimSpace piece) kv.2
    (List.mem_reverse.2 hmem)
    (fun q hq => huniq q (List.mem_reverse.1 hq))
  rw [this]

/-- Corrupting overlap input for C1: raw keys `"a, b"` and `"b, c"` share the
piece `b`; whichever raw key the split loop processes last overwrites the
shared piece. -/
def overlapLines : List Str :=
  [("a, b:").data, ("  version: v1").data, ("b, c:").data, ("  version: v2").data]

/-- C1 counterexample: `overlapLines` parses, `a` and `b` are both pieces of
the raw key `"a, b"`, yet in the decoded canonical map `a` resolves to the
`v1` entry and `b` to the `v2` entry — two different instances with different
field values, refuting the claim for this parsed input. -/
theorem C1_counterexample :
    yamlUnmarshalLines overlapLines =
      Except.ok [(("a, b").data, { zeroEntry with version := ("v1").data }),
        (("b, c").data, { zeroEntry with version := ("v2").data })] ∧
    splitCommaSpace ("a, b").data = [("a").data, ("b").data] ∧
    DecodeBerryLockfile overlapLines =
      Except.ok (yarnSplitOutEntries (allocEntries
        [(("a, b").data, { zeroEntry with version := ("v1").data }),
         (("b, c").data, { zeroEntry with version := ("v2").data })])) ∧
    entryAt (yarnSplitOutEntries (allocEntries
        [(("a, b").data, { zeroEntry with version := ("v1").data }),
         (("b, c").data, { zeroEntry with version := ("v2").data })])) (("a").data) =
      some { zeroEntry with version := ("v1").data } ∧
    entryAt (yarnSplitOutEntries (allocEntries
        [(("a, b").data, { zeroEntry with version := ("v1").data }),
         (("b, c").data, { zeroEntry with version := ("v2").data })])) (("b").data) =
      some { zeroEntry with version := ("v2").data } := by
  refine ⟨by rfl, by decide, by rfl, by decide, by decide⟩

def aliasLines : List Str :=
  [("a@^1.0.0, a@^1.1.0:").data, ("  version: v1.1.3").data,
   ("b@^2.0.0:").data, ("  version: v2.0.0").data]

def aliasRaw : List (Str × YarnLockfileEntry) :=
  [(("a@^1.0.0, a@^1.1.0").data, { zeroEntry with version := ("v1.1.3").data }),
   (("b@^2.0.0").data, { zeroEntry with version := ("v2.0.0").data })]

theorem C1_witness :
    ∃ m, DecodeBerryLockfile aliasLines = Except.ok m ∧
      ∀ kv ∈ allocEntries aliasRaw, ∀ piece ∈ splitCommaSpace kv.1,
        mapLookup m (goTrimSpace piece) = some kv.2 :=
  C1_alias_splitting_amended aliasLines aliasRaw (by rfl) (by decide)

/-! ## Decode failure diagnostics -/

theorem parseLine_error_msg (st : ParseSt) (ln : Str) (e : Str)
    (h : parseLine st ln = Except.error e) : e = yamlErr := by
  rw [parseLine] at h
  cases hp : parseLine? st ln with
  | some st' =>
    rw [hp] at h
    exact Except.noConfusion h
  | none =>
    rw [hp] at h
    injection h with h
    exact h.symm

theorem runParse_error_msg (lines : List Str) (st : ParseSt) (e : Str)
    (h : runParse lines st = Except.error e) : e = yamlErr := by
  induction lines generalizing st with
  | nil => simp [runParse] at h
  | cons ln rest ih =>
    rw [runParse] at h
    cases hp : parseLine st ln with
    | error e' =>
      rw [hp] at h
      have he : e = e' := by
        simpa using h.symm
      rw [he]
      exact parseLine_error_msg st ln e' hp
    | ok st' =>
      rw [hp] at h
      exact ih st' h

/-- C7 corrected: whenever decoding fails, the message is the generic
`could not unmarshal lockfile: <yaml error>`; it does not mention corruption
or merge conflicts.  The corruption / merge-conflict hint exists, but in the
message `Encode` wraps around a yaml marshal failure (`encodeErrHint`). -/
theorem C7_generic_decode_error (lines : List Str) (msg : Str)
    (h : DecodeBerryLockfile lines = Except.error msg) :
    msg = ("could not unmarshal lockfile: ").data ++ yamlErr ∧
    hasPre (("could not unmarshal lockfile: ").data) msg = true ∧
    containsSub msg (("corrupt").data) = false ∧
    containsSub msg (("merge conflict").data) = false ∧
    containsSub encodeErrHint (("merge conflicts").data) = true ∧
    containsSub encodeErrHint (("somehow corrupted").data) = true := by
  rw [DecodeBerryLockfile] at h
  cases hu : yamlUnmarshalLines lines with
  | ok raw =>
    rw [hu] at h
    simp at h
  | error e =>
    rw [hu] at h
    have hmsg : msg = ("could not unmarshal lockfile: ").data ++ e := by
      simpa using h.symm
    have he : e = yamlErr := runParse_error_msg lines initSt e hu
    subst he
    subst hmsg
    refine ⟨rfl, by decide, by decide, by decide, by decide, by decide⟩

/-- Bytes with unresolved merge-conflict markers. -/
def conflictLines : List Str :=
  [("<<<<<<< HEAD").data, ("a:").data, ("  version: v1").data, ("=======").data,
   ("a:").data, ("  version: v2").data, (">>>>>>> theirs").data]

/-- C7 counterexample: on merge-conflict input, decode fails with the generic
`could not unmarshal lockfile` message, which mentions neither corruption nor
merge conflicts — it is exactly a generic parse failure. -/
theorem C7_counterexample :
    DecodeBerryLockfile conflictLines =
      Except.error (("could not unmarshal lockfile: ").data ++ yamlErr) ∧
    containsSub (("could not unmarshal lockfile: ").data ++ yamlErr) (("corrupt").data) = false ∧
    containsSub (("could not unmarshal lockfile: ").data ++ yamlErr) (("merge").data) = false ∧
    containsSub (("could not unmarshal lockfile: ").data ++ yamlErr) (("conflict").data) = false := by
  refine ⟨by rfl, by decide, by decide, by decide⟩

theorem C7_witness :
    hasPre (("could not unmarshal lockfile: ").data)
        (("could not unmarshal lockfile: ").data ++ yamlErr) = true ∧
      containsSub encodeErrHint (("merge conflicts").data) = true :=
  ⟨(C7_generic_decode_error conflictLines
      ((("could not unmarshal lockfile: ").data ++ yamlErr)) (by rfl)).2.1,
    (C7_generic_decode_error conflictLines
      ((("could not unmarshal lockfile: ").data ++ yamlErr)) (by rfl)).2.2.2.2.1⟩

/-! ## Plain-safe scalar facts -/

theorem plainSafe_all_plainChar (s : Str) (h : plainSafe s = true) :
    ∀ c ∈ s, plainChar c = true := by
  intro c hc
  obtain ⟨c0, cs, he, _⟩ := plainSafe_cons s h
  subst he
  simp only [plainSafe, Bool.and_eq_true] at h
  exact List.all_eq_true.1 h.1.1.2 c hc

theorem whitespace_not_plain (c : Char) (hw : c.isWhitespace = true) :
    plainChar c = false := by
  have hcases : ((c = ' ' ∨ c = '\t') ∨ c = '\r') ∨ c = '\n' := by
    simpa [Char.isWhitespace] using hw
  rcases hcases with ((h | h) | h) | h <;> (subst h; decide)

theorem plainSafe_no_space (s : Str) (h : plainSafe s = true) :
    ∀ c ∈ s, c ≠ ' ' := by
  intro c hc he
  subst he
  have h1 := plainSafe_all_plainChar s h ' ' hc
  rw [whitespace_not_plain ' ' (by decide)] at h1
  cases h1

theorem plainSafe_no_ws (s : Str) (h : plainSafe s = true) :
    ∀ c ∈ s, c.isWhitespace = false := by
  intro c hc
  by_cases hw : c.isWhitespace = true
  · have h1 := plainSafe_all_plainChar s h c hc
    rw [whitespace_not_plain c hw] at h1
    cases h1
  · simpa using hw

theorem plainSafe_no_quote (s : Str) (h : plainSafe s = true) :
    ('\'' : Char) ∉ s := by
  intro hc
  have h1 := plainSafe_all_plainChar s h '\'' hc
  rw [(by decide : plainChar '\'' = false)] at h1
  cases h1

/-! ## String scanning facts -/

theorem splitColonSpace_concat (pre v : Str) (h : ∀ c ∈ pre, c ≠ ' ') :
    splitColonSpace (pre ++ ':' :: ' ' :: v) = some (pre, v) := by
  induction pre with
  | nil =>
    rw [List.nil_append, splitColonSpace]
    simp
  | cons c cs ih =>
    rw [List.cons_append, splitColonSpace]
    have hcond : ¬(c = ':' ∧ (cs ++ ':' :: ' ' :: v).head? = some ' ') := by
      rintro ⟨_, hh⟩
      cases cs with
      | nil => simp at hh
      | cons d ds =>
        simp only [List.cons_append, List.head?_cons, Option.some_inj] at hh
        exact h d (List.mem_cons_of_mem _ (List.mem_cons_self _ _)) hh
    rw [if_neg hcond, ih (fun d hd => h d (List.mem_cons_of_mem _ hd))]
    rfl

theorem containsSub_colonSpace_eq_false (s : Str) (h : ∀ c ∈ s, c ≠ ' ') :
    containsSub s ((": ").data) = false := by
  induction s with
  | nil => rfl
  | cons c cs ih =>
    rw [containsSub]
    have hpre : hasPre ((": ").data) (c :: cs) = false := by
      by_cases hc : (':' : Char) = c
      · cases cs with
        | nil =>
          show hasPre [':', ' '] [c] = false
          rw [hasPre, if_pos hc]
          rfl
        | cons d ds =>
          have hd : d ≠ ' ' := h d (List.mem_cons_of_mem _ (List.mem_cons_self _ _))
          show hasPre [':', ' '] (c :: d :: ds) = false
          rw [hasPre, if_pos hc, hasPre]
          rw [if_neg (fun hh => hd hh.symm)]
      · show hasPre [':', ' '] (c :: cs) = false
        rw [hasPre, if_neg hc]
    rw [hpre]
    simp only [Bool.false_eq_true, if_false]
    exact ih (fun d hd => h d (List.mem_cons_of_mem _ hd))

theorem splitCommaSpace_eq_self (s : Str) (h : ∀ c ∈ s, c ≠ ' ') :
    splitCommaSpace s = [s] := by
  induction s with
  | nil => rfl
  | cons c cs ih =>
    cases cs with
    | nil => rfl
    | cons d ds =>
      rw [splitCommaSpace]
      have hcond : ¬(c = ',' ∧ d = ' ') := by
        rintro ⟨_, hd⟩
        exact h d (List.mem_cons_of_mem _ (List.mem_cons_self _ _)) hd
      rw [if_neg hcond, ih (fun x hx => h x (List.mem_cons_of_mem _ hx))]

theorem dropWhile_eq_self_of_none (p : Char → Bool) (s : Str)
    (h : ∀ c ∈ s, p c = false) : s.dropWhile p = s := by
  cases s with
  | nil => rfl
  | cons c cs =>
    rw [List.dropWhile_cons, h c (List.mem_cons_self _ _)]
    simp

theorem goTrimSpace_eq_self (s : Str) (h : ∀ c ∈ s, c.isWhitespace = false) :
    goTrimSpace s = s := by
  rw [goTrimSpace, dropWhile_eq_self_of_none _ s h,
    dropWhile_eq_self_of_none _ s.reverse (fun c hc => h c (List.mem_reverse.1 hc)),
    List.reverse_reverse]

theorem quoteNorm_eq_self (s : Str) (h : ('\'' : Char) ∉ s) : quoteNorm s = s := by
  rw [quoteNorm]
  conv_rhs => rw [← List.map_id s]
  refine List.map_congr_left ?_
  intro c hc
  by_cases he : c = '\''
  · subst he
    exact absurd hc h
  · rw [if_neg he]
    rfl

/-! ## Stepping the parser over encoder output -/

theorem parseLine_blank (st : ParseSt) : parseLine st [] = Except.ok st := rfl

theorem runParse_cons_ok (ln : Str) (rest : List Str) (st st' : ParseSt)
    (h : parseLine st ln = Except.ok st') :
    runParse (ln :: rest) st = runParse rest st' := by
  rw [runParse, h]

theorem parseLine_version (done : List (Str × YarnLockfileEntry)) (k : Str)
    (ev er ei : Str) (ed eo : List (Str × Str)) (ctx : DepCtx) (v : Str) :
    parseLine ⟨done, some (k, ⟨ev, er, ei, ed, eo⟩), ctx⟩ (twoSp ++ ("version: ").data ++ v) =
      Except.ok ⟨done, some (k, ⟨v, er, ei, ed, eo⟩), DepCtx.outer⟩ := rfl

theorem parseLine_resolved (done : List (Str × YarnLockfileEntry)) (k : Str)
    (ev er ei : Str) (ed eo : List (Str × Str)) (ctx : DepCtx) (v : Str) :
    parseLine ⟨done, some (k, ⟨ev, er, ei, ed, eo⟩), ctx⟩ (twoSp ++ ("resolved: ").data ++ v) =
      Except.ok ⟨done, some (k, ⟨ev, v, ei, ed, eo⟩), DepCtx.outer⟩ := rfl

theorem parseLine_integrity (done : List (Str × YarnLockfileEntry)) (k : Str)
    (ev er ei : Str) (ed eo : List (Str × Str)) (ctx : DepCtx) (v : Str) :
    parseLine ⟨done, some (k, ⟨ev, er, ei, ed, eo⟩), ctx⟩ (twoSp ++ ("integrity: ").data ++ v) =
      Except.ok ⟨done, some (k, ⟨ev, er, v, ed, eo⟩), DepCtx.outer⟩ := rfl

theorem parseLine_depLabel (done : List (Str × YarnLockfileEntry)) (k : Str)
    (ev er ei : Str) (eo : List (Str × Str)) (ctx : DepCtx) :
    parseLine ⟨done, some (k, ⟨ev, er, ei, [], eo⟩), ctx⟩
        (twoSp ++ ("dependencies").data ++ [':']) =
      Except.ok ⟨done, some (k, ⟨ev, er, ei, [], eo⟩), DepCtx.inDeps⟩ := rfl

theorem parseLine_optLabel (done : List (Str × YarnLockfileEntry)) (k : Str)
    (ev er ei : Str) (ed : List (Str × Str)) (ctx : DepCtx) :
    parseLine ⟨done, some (k, ⟨ev, er, ei, ed, []⟩), ctx⟩
        (twoSp ++ ("optionalDependencies").data ++ [':']) =
      Except.ok ⟨done, some (k, ⟨ev, er, ei, ed, []⟩), DepCtx.inOpt⟩ := rfl

theorem parseLine_depPair (done : List (Str × YarnLockfileEntry)) (k : Str)
    (ev er ei : Str) (ed eo : List (Str × Str)) (n w : Str)
    (hn : plainSafe n = true) (hdup : n ∉ ed.map Prod.fst) :
    parseLine ⟨done, some (k, ⟨ev, er, ei, ed, eo⟩), DepCtx.inDeps⟩
        (fourSp ++ n ++ ':' :: ' ' :: w) =
      Except.ok ⟨done, some (k, ⟨ev, er, ei, ed ++ [(n, w)], eo⟩), DepCtx.inDeps⟩ := by
  obtain ⟨c, cs, hc, hlow⟩ := plainSafe_cons n hn
  subst hc
  have hcsp : c ≠ ' ' := plainSafe_no_space _ hn c (List.mem_cons_self _ _)
  have hln : (fourSp ++ (c :: cs) ++ ':' :: ' ' :: w : Str) =
      ' ' :: ' ' :: ' ' :: ' ' :: (c :: (cs ++ ':' :: ' ' :: w)) := by
    simp [fourSp]
  rw [hln, parseLine]
  have c1 : ¬((' ' :: ' ' :: ' ' :: ' ' :: (c :: (cs ++ ':' :: ' ' :: w)) : Str).all
      (· = ' ') = true) := by
    simp [List.all_cons, hcsp]
  have c2 : ¬(((' ' :: ' ' :: ' ' :: ' ' :: (c :: (cs ++ ':' :: ' ' :: w)) : Str).dropWhile
      (· = ' ')).head? = some '#') := by
    have hdw : ((' ' :: ' ' :: ' ' :: ' ' :: (c :: (cs ++ ':' :: ' ' :: w)) : Str).dropWhile
        (· = ' ')) = c :: (cs ++ ':' :: ' ' :: w) := by
      simp only [List.dropWhile_cons]
      simp [hcsp]
    rw [hdw]
    simp only [List.head?_cons, Option.some_inj]
    intro he
    subst he
    exact absurd hlow (by decide)
  have c3 : hasPre fourSp (' ' :: ' ' :: ' ' :: ' ' :: (c :: (cs ++ ':' :: ' ' :: w)) : Str)
      = true := rfl
  have c4 : ¬(((' ' :: ' ' :: ' ' :: ' ' :: (c :: (cs ++ ':' :: ' ' :: w)) : Str).drop
      4).head? = some ' ') := by
    simp only [List.drop_succ_cons, List.drop_zero, List.head?_cons, Option.some_inj]
    exact fun he => hcsp he
  unfold parseLine?
  rw [if_neg c1, if_neg c2, if_pos c3, if_neg c4]
  have hsplit : splitColonSpace ((' ' :: ' ' :: ' ' :: ' ' :: (c :: (cs ++ ':' :: ' ' :: w))
      : Str).drop 4) = some (c :: cs, w) := by
    simp only [List.drop_succ_cons, List.drop_zero]
    have : (c :: (cs ++ ':' :: ' ' :: w) : Str) = (c :: cs) ++ ':' :: ' ' :: w := by simp
    rw [this]
    exact splitColonSpace_concat _ _ (plainSafe_no_space _ hn)
  simp only [hsplit]
  have hcont : (ed.map Prod.fst).contains (c :: cs) = false := by simpa using hdup
  simp only [hcont]
  rfl

theorem parseLine_optPair (done : List (Str × YarnLockfileEntry)) (k : Str)
    (ev er ei : Str) (ed eo : List (Str × Str)) (n w : Str)
    (hn : plainSafe n = true) (hdup : n ∉ eo.map Prod.fst) :
    parseLine ⟨done, some (k, ⟨ev, er, ei, ed, eo⟩), DepCtx.inOpt⟩
        (fourSp ++ n ++ ':' :: ' ' :: w) =
      Except.ok ⟨done, some (k, ⟨ev, er, ei, ed, eo ++ [(n, w)]⟩), DepCtx.inOpt⟩ := by
  obtain ⟨c, cs, hc, hlow⟩ := plainSafe_cons n hn
  subst hc
  have hcsp : c ≠ ' ' := plainSafe_no_space _ hn c (List.mem_cons_self _ _)
  have hln : (fourSp ++ (c :: cs) ++ ':' :: ' ' :: w : Str) =
      ' ' :: ' ' :: ' ' :: ' ' :: (c :: (cs ++ ':' :: ' ' :: w)) := by
    simp [fourSp]
  rw [hln, parseLine]
  have c1 : ¬((' ' :: ' ' :: ' ' :: ' ' :: (c :: (cs ++ ':' :: ' ' :: w)) : Str).all
      (· = ' ') = true) := by
    simp [List.all_cons, hcsp]
  have c2 : ¬(((' ' :: ' ' :: ' ' :: ' ' :: (c :: (cs ++ ':' :: ' ' :: w)) : Str).dropWhile
      (· = ' ')).head? = some '#') := by
    have hdw : ((' ' :: ' ' :: ' ' :: ' ' :: (c :: (cs ++ ':' :: ' ' :: w)) : Str).dropWhile
        (· = ' ')) = c :: (cs ++ ':' :: ' ' :: w) := by
      simp only [List.dropWhile_cons]
      simp [hcsp]
    rw [hdw]
    simp only [List.head?_cons, Option.some_inj]
    intro he
    subst he
    exact absurd hlow (by decide)
  have c3 : hasPre fourSp (' ' :: ' ' :: ' ' :: ' ' :: (c :: (cs ++ ':' :: ' ' :: w)) : Str)
      = true := rfl
  have c4 : ¬(((' ' :: ' ' :: ' ' :: ' ' :: (c :: (cs ++ ':' :: ' ' :: w)) : Str).drop
      4).head? = some ' ') := by
    simp only [List.drop_succ_cons, List.drop_zero, List.head?_cons, Option.some_inj]
    exact fun he => hcsp he
  unfold parseLine?
  rw [if_neg c1, if_neg c2, if_pos c3, if_neg c4]
  have hsplit : splitColonSpace ((' ' :: ' ' :: ' ' :: ' ' :: (c :: (cs ++ ':' :: ' ' :: w))
      : Str).drop 4) = some (c :: cs, w) := by
    simp only [List.drop_succ_cons, List.drop_zero]
    have : (c :: (cs ++ ':' :: ' ' :: w) : Str) = (c :: cs) ++ ':' :: ' ' :: w := by simp
    rw [this]
    exact splitColonSpace_concat _ _ (plainSafe_no_space _ hn)
  simp only [hsplit]
  have hcont : (eo.map Prod.fst).contains (c :: cs) = false := by simpa using hdup
  simp only [hcont]
  rfl

theorem parseLine_key (done : List (Str × YarnLockfileEntry)) (k0 k : Str)
    (e0 : YarnLockfileEntry) (ctx : DepCtx)
    (hk : plainSafe k = true) (hdone : k ∉ done.map Prod.fst) (hne : k0 ≠ k) :
    parseLine ⟨done, some (k0, e0), ctx⟩ (k ++ [':']) =
      Except.ok ⟨done ++ [(k0, e0)], some (k, zeroEntry), DepCtx.outer⟩ := by
  obtain ⟨c, cs, hc, hlow⟩ := plainSafe_cons k hk
  subst hc
  have hcsp : c ≠ ' ' := plainSafe_no_space _ hk c (List.mem_cons_self _ _)
  have hln : ((c :: cs) ++ [':'] : Str) = c :: (cs ++ [':']) := by simp
  rw [hln, parseLine]
  have c1 : ¬((c :: (cs ++ [':']) : Str).all (· = ' ') = true) := by
    simp [List.all_cons, hcsp]
  have c2 : ¬(((c :: (cs ++ [':']) : Str).dropWhile (· = ' ')).head? = some '#') := by
    have hdw : ((c :: (cs ++ [':']) : Str).dropWhile (· = ' ')) = c :: (cs ++ [':']) := by
      simp only [List.dropWhile_cons]
      simp [hcsp]
    rw [hdw]
    simp only [List.head?_cons, Option.some_inj]
    intro he
    subst he
    exact absurd hlow (by decide)
  have c3 : hasPre fourSp (c :: (cs ++ [':']) : Str) = false := by
    show hasPre (' ' :: [' ', ' ', ' ']) (c :: (cs ++ [':'])) = false
    rw [hasPre]
    rw [if_neg (fun hh => hcsp hh.symm)]
  have c4 : hasPre twoSp (c :: (cs ++ [':']) : Str) = false := by
    show hasPre (' ' :: [' ']) (c :: (cs ++ [':'])) = false
    rw [hasPre]
    rw [if_neg (fun hh => hcsp hh.symm)]
  have c5 : containsSub (c :: (cs ++ [':']) : Str) ((": ").data) = false := by
    refine containsSub_colonSpace_eq_false _ ?_
    intro d hd
    rcases List.mem_cons.1 hd with h1 | h1
    · subst h1
      exact hcsp
    · rcases List.mem_append.1 h1 with h2 | h2
      · exact plainSafe_no_space _ hk d (List.mem_cons_of_mem _ h2)
      · rcases List.mem_singleton.1 h2 with h3
        subst h3
        decide
  have c6 : (c :: (cs ++ [':']) : Str).getLast? = some ':' := by
    rw [← hln]
    exact List.getLast?_concat _
  unfold parseLine?
  rw [if_neg c1, if_neg c2]
  simp only [c3, c4, Bool.false_eq_true, if_false]
  simp only [c5, Bool.false_eq_true, if_false]
  rw [if_pos c6]
  have c7 : (c :: (cs ++ [':']) : Str).dropLast = c :: cs := by
    rw [← hln]
    exact List.dropLast_concat
  simp only [c7]
  have c8 : (done.map Prod.fst).contains (c :: cs) = false := by simpa using hdone
  simp only [c8, Bool.false_eq_true, if_false]
  rw [if_neg hne]

/-! ## Dependency blocks and whole entries -/

theorem strictSorted_chain (ks : List Str) (h : strictSorted ks = true) :
    List.Chain' (· < ·) ks := by
  induction ks with
  | nil => simp
  | cons a tl ih =>
    cases tl with
    | nil => simp
    | cons b tl2 =>
      rw [strictSorted, Bool.and_eq_true] at h
      exact List.chain'_cons.2 ⟨of_decide_eq_true h.1, ih h.2⟩

theorem strictSorted_pairwise (ks : List Str) (h : strictSorted ks = true) :
    List.Pairwise (· < ·) ks :=
  List.chain'_iff_pairwise.1 (strictSorted_chain ks h)

theorem strictSorted_sorted (ks : List Str) (h : strictSorted ks = true) :
    List.Sorted (· ≤ ·) ks :=
  (strictSorted_pairwise ks h).imp le_of_lt

theorem strictSorted_nodup (ks : List Str) (h : strictSorted ks = true) :
    ks.Nodup :=
  (strictSorted_pairwise ks h).imp ne_of_lt

theorem mapLookup_self {α : Type} (m : List (Str × α)) (hnd : (m.map Prod.fst).Nodup)
    (p : Str × α) (hp : p ∈ m) : mapLookup m p.1 = some p.2 := by
  induction m with
  | nil => cases hp
  | cons hd tl ih =>
    obtain ⟨k0, v0⟩ := hd
    simp only [List.map_cons, List.nodup_cons] at hnd
    rcases List.mem_cons.1 hp with h1 | h1
    · subst h1
      simp [mapLookup]
    · have hk : k0 ≠ p.1 := by
        intro he
        exact hnd.1 (he ▸ (List.mem_map_of_mem Prod.fst h1))
      simp only [mapLookup, hk, if_false]
      exact ih hnd.2 h1

theorem depsWF_names (m : List (Str × Str)) (h : depsWF m = true) :
    ∀ p ∈ m, plainSafe p.1 = true := by
  intro p hp
  rw [depsWF, Bool.and_eq_true] at h
  have := List.all_eq_true.1 h.1 p hp
  rw [Bool.and_eq_true] at this
  exact this.1

theorem depsWF_nodup (m : List (Str × Str)) (h : depsWF m = true) :
    (m.map Prod.fst).Nodup := by
  rw [depsWF, Bool.and_eq_true] at h
  exact strictSorted_nodup _ h.2

/-- Under well-formedness the emitted dependency block lists the map's own
pairs in order. -/
theorem yamlDepLines_wf (label : Str) (m : List (Str × Str))
    (hwf : depsWF m = true) (hne : m ≠ []) :
    yamlDepLines label m = (twoSp ++ label ++ [':']) ::
      m.map (fun p => fourSp ++ p.1 ++ ':' :: ' ' :: p.2) := by
  rw [yamlDepLines, if_neg hne]
  congr 1
  have hsor : List.Sorted (· ≤ ·) (m.map Prod.fst) := by
    rw [depsWF, Bool.and_eq_true] at hwf
    exact strictSorted_sorted _ hwf.2
  rw [sortKeys, List.Sorted.insertionSort_eq hsor, List.map_map]
  refine List.map_congr_left ?_
  intro p hp
  rw [Function.comp_apply, mapLookup_self m (depsWF_nodup m hwf) p hp]
  show fourSp ++ p.1 ++ (": ").data ++ p.2 = fourSp ++ p.1 ++ ':' :: ' ' :: p.2
  simp [List.append_assoc]

theorem runParse_depPairs (m : List (Str × Str)) (done : List (Str × YarnLockfileEntry))
    (k : Str) (ev er ei : Str) (ed eo : List (Str × Str)) (rest : List Str)
    (hm : ∀ p ∈ m, plainSafe p.1 = true)
    (hnodup : ((ed ++ m).map Prod.fst).Nodup) :
    runParse ((m.map (fun p => fourSp ++ p.1 ++ ':' :: ' ' :: p.2)) ++ rest)
        ⟨done, some (k, ⟨ev, er, ei, ed, eo⟩), DepCtx.inDeps⟩ =
      runParse rest ⟨done, some (k, ⟨ev, er, ei, ed ++ m, eo⟩), DepCtx.inDeps⟩ := by
  induction m generalizing ed with
  | nil => simp
  | cons p ps ih =>
    have hdup : p.1 ∉ ed.map Prod.fst := by
      rw [List.map_append, List.nodup_append] at hnodup
      intro hc
      exact hnodup.2.2 hc (by simp)
    rw [List.map_cons, List.cons_append,
      runParse_cons_ok _ _ _ _
        (parseLine_depPair done k ev er ei ed eo p.1 p.2 (hm p (List.mem_cons_self _ _)) hdup)]
    have hnodup' : (((ed ++ [p]) ++ ps).map Prod.fst).Nodup := by
      rw [List.append_assoc, List.singleton_append]
      exact hnodup
    have := ih (ed ++ [p]) (fun q hq => hm q (List.mem_cons_of_mem _ hq)) hnodup'
    rw [this, List.append_assoc, List.singleton_append]

theorem runParse_optPairs (m : List (Str × Str)) (done : List (Str × YarnLockfileEntry))
    (k : Str) (ev er ei : Str) (ed eo : List (Str × Str)) (rest : List Str)
    (hm : ∀ p ∈ m, plainSafe p.1 = true)
    (hnodup : ((eo ++ m).map Prod.fst).Nodup) :
    runParse ((m.map (fun p => fourSp ++ p.1 ++ ':' :: ' ' :: p.2)) ++ rest)
        ⟨done, some (k, ⟨ev, er, ei, ed, eo⟩), DepCtx.inOpt⟩ =
      runParse rest ⟨done, some (k, ⟨ev, er, ei, ed, eo ++ m⟩), DepCtx.inOpt⟩ := by
  induction m generalizing eo with
  | nil => simp
  | cons p ps ih =>
    have hdup : p.1 ∉ eo.map Prod.fst := by
      rw [List.map_append, List.nodup_append] at hnodup
      intro hc
      exact hnodup.2.2 hc (by simp)
    rw [List.map_cons, List.cons_append,
      runParse_cons_ok _ _ _ _
        (parseLine_optPair done k ev er ei ed eo p.1 p.2 (hm p (List.mem_cons_self _ _)) hdup)]
    have hnodup' : (((eo ++ [p]) ++ ps).map Prod.fst).Nodup := by
      rw [List.append_assoc, List.singleton_append]
      exact hnodup
    have := ih (eo ++ [p]) (fun q hq => hm q (List.mem_cons_of_mem _ hq)) hnodup'
    rw [this, List.append_assoc, List.singleton_append]

theorem entryWF_fields (e : YarnLockfileEntry) (he : entryWF e = true) :
    plainSafe e.version = true ∧ plainSafe e.resolved = true ∧ plainSafe e.integrity = true ∧
      depsWF e.dependencies = true ∧ depsWF e.optionalDependencies = true := by
  rw [entryWF, Bool.and_eq_true, Bool.and_eq_true, Bool.and_eq_true, Bool.and_eq_true] at he
  exact ⟨he.1.1.1.1, he.1.1.1.2, he.1.1.2, he.1.2, he.2⟩

/-- Stepping the parser over the field lines of one well-formed entry:
starting from a freshly opened key it reconstructs exactly that entry. -/
theorem runParse_entry (done : List (Str × YarnLockfileEntry)) (k : Str)
    (e : YarnLockfileEntry) (he : entryWF e = true) (rest : List Str) :
    ∃ ctx', runParse (yamlEntryLines e ++ rest) ⟨done, some (k, zeroEntry), DepCtx.outer⟩ =
      runParse rest ⟨done, some (k, e), ctx'⟩ := by
  obtain ⟨ev, er, ei, ed, eo⟩ := e
  obtain ⟨hv, hr, hi, hd, ho⟩ := entryWF_fields _ he
  show ∃ ctx', runParse ((twoSp ++ ("version: ").data ++ ev) ::
      (twoSp ++ ("resolved: ").data ++ er) ::
      (twoSp ++ ("integrity: ").data ++ ei) ::
      ((yamlDepLines (("dependencies").data) ed ++
        yamlDepLines (("optionalDependencies").data) eo) ++ rest))
      ⟨done, some (k, ⟨[], [], [], [], []⟩), DepCtx.outer⟩ =
    runParse rest ⟨done, some (k, ⟨ev, er, ei, ed, eo⟩), ctx'⟩
  rw [runParse_cons_ok _ _ _ _ (parseLine_version done k [] [] [] [] [] DepCtx.outer ev),
    runParse_cons_ok _ _ _ _ (parseLine_resolved done k ev [] [] [] [] DepCtx.outer er),
    runParse_cons_ok _ _ _ _ (parseLine_integrity done k ev er [] [] [] DepCtx.outer ei)]
  by_cases hde : ed = []
  · subst hde
    by_cases hoe : eo = []
    · subst hoe
      exact ⟨DepCtx.outer, by simp [yamlDepLines]⟩
    · refine ⟨DepCtx.inOpt, ?_⟩
      rw [show yamlDepLines (("dependencies").data) ([] : List (Str × Str)) = [] from rfl,
        List.nil_append, yamlDepLines_wf _ eo ho hoe, List.cons_append,
        runParse_cons_ok _ _ _ _ (parseLine_optLabel done k ev er ei [] DepCtx.outer)]
      have hstep := runParse_optPairs eo done k ev er ei [] [] rest (depsWF_names eo ho)
        (by simpa using depsWF_nodup eo ho)
      rw [List.nil_append] at hstep
      exact hstep
  · by_cases hoe : eo = []
    · subst hoe
      refine ⟨DepCtx.inDeps, ?_⟩
      rw [yamlDepLines_wf _ ed hd hde,
        show yamlDepLines (("optionalDependencies").data) ([] : List (Str × Str)) = []
          from rfl, List.append_nil, List.cons_append,
        runParse_cons_ok _ _ _ _ (parseLine_depLabel done k ev er ei [] DepCtx.outer)]
      have hstep := runParse_depPairs ed done k ev er ei [] [] rest (depsWF_names ed hd)
        (by simpa using depsWF_nodup ed hd)
      rw [List.nil_append] at hstep
      exact hstep
    · refine ⟨DepCtx.inOpt, ?_⟩
      rw [yamlDepLines_wf _ ed hd hde, yamlDepLines_wf _ eo ho hoe,
        List.append_assoc, List.cons_append, List.cons_append,
        runParse_cons_ok _ _ _ _ (parseLine_depLabel done k ev er ei [] DepCtx.outer)]
      have hstep1 := runParse_depPairs ed done k ev er ei [] []
        ((twoSp ++ ("optionalDependencies").data ++ [':']) ::
          (eo.map (fun p => fourSp ++ p.1 ++ ':' :: ' ' :: p.2) ++ rest))
        (depsWF_names ed hd) (by simpa using depsWF_nodup ed hd)
      rw [List.nil_append] at hstep1
      rw [hstep1,
        runParse_cons_ok _ _ _ _ (parseLine_optLabel done k ev er ei ed DepCtx.inDeps)]
      have hstep2 := runParse_optPairs eo done k ev er ei ed [] rest (depsWF_names eo ho)
        (by simpa using depsWF_nodup eo ho)
      rw [List.nil_append] at hstep2
      exact hstep2

theorem mapLookup_mem {α : Type} (m : List (Str × α)) (k : Str) (v : α)
    (h : mapLookup m k = some v) : (k, v) ∈ m := by
  induction m with
  | nil => cases h
  | cons hd tl ih =>
    obtain ⟨k0, v0⟩ := hd
    by_cases hk : k0 = k
    · subst hk
      rw [show mapLookup ((k0, v0) :: tl) k0 = some v0 from by simp [mapLookup]] at h
      rw [Option.some_inj] at h
      subst h
      exact List.mem_cons_self _ _
    · simp only [mapLookup, hk, if_false] at h
      exact List.mem_cons_of_mem _ (ih h)

theorem depsWF_values (m : List (Str × Str)) (h : depsWF m = true) :
    ∀ p ∈ m, plainSafe p.2 = true := by
  intro p hp
  rw [depsWF, Bool.and_eq_true] at h
  have := List.all_eq_true.1 h.1 p hp
  rw [Bool.and_eq_true] at this
  exact this.2

theorem yamlDepLines_props (label : Str) (m : List (Str × Str)) (hm : depsWF m = true)
    (hlab : ('\'' : Char) ∉ label) :
    ∀ ln ∈ yamlDepLines label m, hasPre [' '] ln = true ∧ ('\'' : Char) ∉ ln := by
  intro ln hln
  rw [yamlDepLines] at hln
  by_cases hne : m = []
  · rw [if_pos hne] at hln
    cases hln
  · rw [if_neg hne] at hln
    rcases List.mem_cons.1 hln with h1 | h1
    · subst h1
      refine ⟨rfl, ?_⟩
      intro hq
      rcases List.mem_append.1 hq with h2 | h2
      · rcases List.mem_append.1 h2 with h3 | h3
        · simp [twoSp] at h3
        · exact hlab h3
      · exact absurd (List.mem_singleton.1 h2) (by decide)
    · rw [List.mem_map] at h1
      obtain ⟨n, hn, he⟩ := h1
      have hnk : n ∈ m.map Prod.fst := (sortKeys_perm _).subset hn
      rw [List.mem_map] at hnk
      obtain ⟨q, hq, hqn⟩ := hnk
      have hnps : plainSafe n = true := by
        rw [← hqn]
        exact depsWF_names m hm q hq
      refine ⟨?_, ?_⟩
      · rw [← he]
        rfl
      · rw [← he]
        intro hmem
        rcases List.mem_append.1 hmem with h2 | h2
        · rcases List.mem_append.1 h2 with h3 | h3
          · rcases List.mem_append.1 h3 with h4 | h4
            · simp [fourSp] at h4
            · exact plainSafe_no_quote n hnps h4
          · exact absurd h3 (by decide)
        · cases hl : mapLookup m n with
          | none => rw [hl] at h2; cases h2
          | some v =>
            rw [hl] at h2
            have hv : (n, v) ∈ m := mapLookup_mem m n v hl
            exact plainSafe_no_quote v (depsWF_values m hm (n, v) hv) h2

theorem yamlEntryLines_props (e : YarnLockfileEntry) (he : entryWF e = true) :
    ∀ ln ∈ yamlEntryLines e, hasPre [' '] ln = true ∧ ('\'' : Char) ∉ ln := by
  obtain ⟨hv, hr, hi, hd, ho⟩ := entryWF_fields e he
  intro ln hln
  rw [yamlEntryLines] at hln
  have hscalar : ∀ (pre : Str) (v : Str), plainSafe v = true → ('\'' : Char) ∉ pre →
      ('\'' : Char) ∉ (twoSp ++ pre ++ v : Str) := by
    intro pre v hpv hpre hmem
    rcases List.mem_append.1 hmem with h2 | h2
    · rcases List.mem_append.1 h2 with h3 | h3
      · simp [twoSp] at h3
      · exact hpre h3
    · exact plainSafe_no_quote v hpv h2
  rcases List.mem_cons.1 hln with h1 | h1
  · subst h1
    exact ⟨rfl, hscalar _ _ hv (by decide)⟩
  · rcases List.mem_cons.1 h1 with h2 | h2
    · subst h2
      exact ⟨rfl, hscalar _ _ hr (by decide)⟩
    · rcases List.mem_cons.1 h2 with h3 | h3
      · subst h3
        exact ⟨rfl, hscalar _ _ hi (by decide)⟩
      · rcases List.mem_append.1 h3 with h4 | h4
        · exact yamlDepLines_props _ _ hd (by decide) ln h4
        · exact yamlDepLines_props _ _ ho (by decide) ln h4

theorem postProcess_append (a b : List Str) :
    postProcess (a ++ b) = postProcess a ++ postProcess b := by
  simp [postProcess]

theorem postProcess_indented (lines : List Str)
    (h : ∀ ln ∈ lines, hasPre [' '] ln = true ∧ ('\'' : Char) ∉ ln) :
    postProcess lines = lines := by
  induction lines with
  | nil => rfl
  | cons ln rest ih =>
    obtain ⟨h1, h2⟩ := h ln (List.mem_cons_self _ _)
    rw [postProcess_cons, if_pos h1, quoteNorm_eq_self ln h2,
      ih (fun x hx => h x (List.mem_cons_of_mem _ hx)), List.singleton_append]

theorem plainSafe_key_head (k : Str) (t : Str) (hk : plainSafe k = true) :
    hasPre [' '] (k ++ t) = false := by
  obtain ⟨c, cs, hc, hlow⟩ := plainSafe_cons k hk
  subst hc
  rw [List.cons_append]
  show hasPre (' ' :: []) (c :: (cs ++ t)) = false
  rw [hasPre]
  rw [if_neg (fun hh => plainSafe_no_space _ hk c (List.mem_cons_self _ _) hh.symm)]

theorem postProcess_block (k : Str) (e : YarnLockfileEntry)
    (hk : plainSafe k = true) (he : entryWF e = true) :
    postProcess ((k ++ [':']) :: yamlEntryLines e) =
      [] :: (k ++ [':']) :: yamlEntryLines e := by
  rw [postProcess_cons, if_neg ?hpre]
  case hpre =>
    rw [plainSafe_key_head k [':'] hk]
    simp
  rw [quoteNorm_eq_self _ ?hq]
  case hq =>
    intro hmem
    rcases List.mem_append.1 hmem with h1 | h1
    · exact plainSafe_no_quote k hk h1
    · exact absurd (List.mem_singleton.1 h1) (by decide)
  rw [postProcess_indented _ (yamlEntryLines_props e he)]
  rfl

/-- The entry value a key resolves to (zero entry when absent). -/
def entryValAt (l : BerryLockfile) (k : Str) : YarnLockfileEntry :=
  match mapLookup l k with
  | some p => p.val
  | none => zeroEntry

/-- After the fixed header the `__metadata` block is open, with `version: 5`
read into the string field and `cacheKey` dropped. -/
theorem runParse_header (rest : List Str) :
    runParse (headerLines ++ rest) initSt =
      runParse rest ⟨[], some ((("__metadata").data), metaEntry), DepCtx.outer⟩ := rfl

/-- Stepping the parser over the post-processed blocks of the given keys. -/
theorem runParse_blocks (l : BerryLockfile) (ks : List Str)
    (done : List (Str × YarnLockfileEntry)) (k0 : Str) (e0 : YarnLockfileEntry) (ctx : DepCtx)
    (hks : ∀ k ∈ ks, plainSafe k = true ∧ mapLookup l k ≠ none ∧
      entryWF (entryValAt l k) = true)
    (hnodup : ks.Nodup)
    (hfresh : ∀ k ∈ ks, k ∉ done.map Prod.fst ∧ k ≠ k0) :
    runParse (postProcess (ks.flatMap (fun k =>
        match mapLookup l k with
        | some p => (k ++ [':']) :: yamlEntryLines p.val
        | none => []))) ⟨done, some (k0, e0), ctx⟩ =
      Except.ok (done ++ (k0, e0) :: ks.map (fun k => (k, entryValAt l k))) := by
  induction ks generalizing done k0 e0 ctx with
  | nil =>
    show Except.ok (done ++ closeCur (some (k0, e0))) = _
    rfl
  | cons k ks' ih =>
    obtain ⟨hk, hlk, hwfk⟩ := hks k (List.mem_cons_self _ _)
    obtain ⟨p, hp⟩ : ∃ p, mapLookup l k = some p := by
      cases hq : mapLookup l k with
      | none => exact absurd hq hlk
      | some p => exact ⟨p, rfl⟩
    have hev : entryValAt l k = p.val := by
      rw [entryValAt, hp]
    rw [List.flatMap_cons]
    simp only [hp]
    rw [postProcess_append, postProcess_block k p.val hk (hev ▸ hwfk), List.cons_append,
      runParse_cons_ok _ _ _ _ (parseLine_blank _), List.cons_append,
      runParse_cons_ok _ _ _ _ (parseLine_key done k0 k e0 ctx hk
        (hfresh k (List.mem_cons_self _ _)).1 (Ne.symm (hfresh k (List.mem_cons_self _ _)).2))]
    obtain ⟨ctx', hctx⟩ := runParse_entry (done ++ [(k0, e0)]) k p.val (hev ▸ hwfk)
      (postProcess (ks'.flatMap (fun k =>
        match mapLookup l k with
        | some p => (k ++ [':']) :: yamlEntryLines p.val
        | none => [])))
    rw [hctx]
    rw [ih (done ++ [(k0, e0)]) k p.val ctx'
      (fun q hq => hks q (List.mem_cons_of_mem _ hq))
      ((List.nodup_cons.1 hnodup).2)
      ?hfresh2]
    case hfresh2 =>
      intro q hq
      obtain ⟨hq1, _⟩ := hfresh q (List.mem_cons_of_mem _ hq)
      refine ⟨?_, ?_⟩
      · rw [List.map_append]
        intro hc
        rcases List.mem_append.1 hc with h1 | h1
        · exact hq1 h1
        · rcases List.mem_singleton.1 h1 with h2
          exact (hfresh q (List.mem_cons_of_mem _ hq)).2 h2
      · intro hc
        exact (List.nodup_cons.1 hnodup).1 (hc ▸ hq)
    rw [List.map_cons, hev, List.append_assoc, List.singleton_append]

/-! ## Round-trip assembly -/

theorem flatMap_split_identity (L : BerryLockfile)
    (h : ∀ kv ∈ L, splitCommaSpace kv.1 = [kv.1] ∧ goTrimSpace kv.1 = kv.1) :
    L.flatMap (fun kv => (splitCommaSpace kv.1).map (fun p => (goTrimSpace p, kv.2))) = L := by
  induction L with
  | nil => rfl
  | cons kv rest ih =>
    rw [List.flatMap_cons, (h kv (List.mem_cons_self _ _)).1, List.map_singleton,
      (h kv (List.mem_cons_self _ _)).2, ih (fun q hq => h q (List.mem_cons_of_mem _ hq))]
    rfl

theorem yarnSplit_identity (L : BerryLockfile)
    (h : ∀ kv ∈ L, splitCommaSpace kv.1 = [kv.1] ∧ goTrimSpace kv.1 = kv.1)
    (hnd : (L.map Prod.fst).Nodup) (k : Str) :
    mapLookup (yarnSplitOutEntries L) k = mapLookup L k := by
  rw [yarnSplitOutEntries, yarnSplit_fold_eq, mapLookup_foldl_insert,
    flatMap_split_identity L h, mapLookup_reverse_of_nodup L hnd k]
  cases mapLookup L k <;> simp [mapLookup]

theorem allocFrom_entryVal (raw : List (Str × YarnLockfileEntry)) (n : Nat) (k : Str) :
    (mapLookup (allocFrom n raw) k).map PEntry.val = mapLookup raw k := by
  induction raw generalizing n with
  | nil => rfl
  | cons kv rest ih =>
    obtain ⟨k0, e0⟩ := kv
    rw [allocFrom]
    by_cases hk : k0 = k
    · simp [mapLookup, hk]
    · simp only [mapLookup, hk, if_false]
      exact ih (n + 1)

theorem allocFrom_keys (raw : List (Str × YarnLockfileEntry)) (n : Nat) :
    (allocFrom n raw).map Prod.fst = raw.map Prod.fst := by
  induction raw generalizing n with
  | nil => rfl
  | cons kv rest ih =>
    rw [allocFrom, List.map_cons, List.map_cons, ih (n + 1)]

theorem plainSafe_ne_metadata (k : Str) (h : plainSafe k = true) :
    k ≠ ("__metadata").data := by
  obtain ⟨c, cs, hc, hlow⟩ := plainSafe_cons k h
  subst hc
  intro he
  have : c = '_' := by
    have := congrArg (fun l => List.head? l) he
    simpa using this
  subst this
  exact absurd hlow (by decide)

theorem lockfileWF_entry (l : BerryLockfile) (hwf : lockfileWF l = true)
    (k : Str) (p : PEntry) (hp : mapLookup l k = some p) : entryWF p.val = true := by
  rw [lockfileWF, Bool.and_eq_true] at hwf
  have hmem := mapLookup_mem l k p hp
  have := List.all_eq_true.1 hwf.1 (k, p) hmem
  rw [Bool.and_eq_true] at this
  exact this.2

theorem mapLookup_keyed_map (ks : List Str) (f : Str → YarnLockfileEntry) (k : Str) :
    mapLookup (ks.map (fun k => (k, f k))) k = if k ∈ ks then some (f k) else none := by
  induction ks with
  | nil => simp [mapLookup]
  | cons a tl ih =>
    by_cases ha : a = k
    · subst ha
      simp [mapLookup]
    · rw [List.map_cons]
      simp only [mapLookup, ha, if_false]
      rw [ih]
      by_cases hm : k ∈ tl <;> simp [hm, List.mem_cons, Ne.symm ha]

/-- C2 amended: on every nonempty well-formed lockfile, decoding the
encoder's own output succeeds, but the decoded canonical map is the encoded
one plus one extra entry: the `__metadata` header block is read back as a
package entry whose version is the string `5`.  On every other key the
decoded entry equals the encoded one, so the claimed equality of key sets
fails exactly by the `__metadata` key. -/
theorem C2_roundtrip_amended (l : BerryLockfile)
    (hwf : lockfileWF l = true) (hne : l ≠ []) :
    ∃ m, DecodeBerryLockfile (Encode l) = Except.ok m ∧
      entryAt m (("__metadata").data) = some metaEntry ∧
      ∀ k, k ≠ ("__metadata").data → entryAt m k = entryAt l k := by
  have hperm : (sortKeys (l.map Prod.fst)).Perm (l.map Prod.fst) := sortKeys_perm _
  have hkeyswf : ∀ k ∈ sortKeys (l.map Prod.fst), plainSafe k = true := fun k hk =>
    lockfileWF_key_plainSafe l hwf k (hperm.subset hk)
  have hnodupl : (l.map Prod.fst).Nodup := by
    rw [lockfileWF, Bool.and_eq_true] at hwf
    exact of_decide_eq_true hwf.2
  have hnodups : (sortKeys (l.map Prod.fst)).Nodup := (hperm.nodup_iff).2 hnodupl
  have hparse : yamlUnmarshalLines (Encode l) = Except.ok
      ((("__metadata").data, metaEntry) ::
        (sortKeys (l.map Prod.fst)).map (fun k => (k, entryValAt l k))) := by
    rw [Encode, yamlUnmarshalLines, runParse_header, yamlEncodeLines, if_neg hne,
      runParse_blocks l (sortKeys (l.map Prod.fst)) [] (("__metadata").data) metaEntry
        DepCtx.outer ?hks hnodups ?hfresh]
    · rfl
    case hks =>
      intro k hk
      have hmem : mapLookup l k ≠ none := (mem_map_fst_iff_lookup l k).1 (hperm.subset hk)
      refine ⟨hkeyswf k hk, hmem, ?_⟩
      cases hp : mapLookup l k with
      | none => exact absurd hp hmem
      | some p =>
        rw [entryValAt, hp]
        exact lockfileWF_entry l hwf k p hp
    case hfresh =>
      intro k hk
      exact ⟨by simp, plainSafe_ne_metadata k (hkeyswf k hk)⟩
  set raw : List (Str × YarnLockfileEntry) :=
    (("__metadata").data, metaEntry) ::
      (sortKeys (l.map Prod.fst)).map (fun k => (k, entryValAt l k)) with hraw
  have hrawkeys : raw.map Prod.fst = ("__metadata").data :: sortKeys (l.map Prod.fst) := by
    rw [hraw, List.map_cons, List.map_map]
    congr 1
    exact List.map_id _
  have hndraw : (raw.map Prod.fst).Nodup := by
    rw [hrawkeys, List.nodup_cons]
    exact ⟨fun hc => plainSafe_ne_metadata _ (hkeyswf _ hc) rfl, hnodups⟩
  have hid : ∀ kv ∈ allocFrom 0 raw,
      splitCommaSpace kv.1 = [kv.1] ∧ goTrimSpace kv.1 = kv.1 := by
    intro kv hkv
    obtain ⟨kv', hkv', h1, _⟩ := mem_allocFrom_exists raw 0 kv hkv
    have hkey : kv.1 ∈ raw.map Prod.fst := by
      rw [h1]
      exact List.mem_map_of_mem _ hkv'
    rw [hrawkeys] at hkey
    rcases List.mem_cons.1 hkey with h2 | h2
    · rw [h2]
      exact ⟨by decide, by decide⟩
    · have hps := hkeyswf _ h2
      exact ⟨splitCommaSpace_eq_self _ (plainSafe_no_space _ hps),
        goTrimSpace_eq_self _ (plainSafe_no_ws _ hps)⟩
  have hnda : ((allocFrom 0 raw).map Prod.fst).Nodup := by
    rw [allocFrom_keys]
    exact hndraw
  have hlookupM : ∀ k, entryAt (yarnSplitOutEntries (allocEntries raw)) k = mapLookup raw k := by
    intro k
    rw [entryAt, allocEntries, yarnSplit_identity (allocFrom 0 raw) hid hnda k,
      allocFrom_entryVal]
  refine ⟨yarnSplitOutEntries (allocEntries raw), ?_, ?_, ?_⟩
  · rw [DecodeBerryLockfile, hparse]
  · rw [hlookupM, hraw]
    simp [mapLookup]
  · intro k hk
    rw [hlookupM, hraw]
    have hstep : mapLookup ((("__metadata").data, metaEntry) ::
        (sortKeys (l.map Prod.fst)).map (fun k => (k, entryValAt l k))) k =
        mapLookup ((sortKeys (l.map Prod.fst)).map (fun k => (k, entryValAt l k))) k := by
      simp only [mapLookup]
      rw [if_neg (fun hc => hk hc.symm)]
    rw [hstep, mapLookup_keyed_map]
    by_cases hm : k ∈ sortKeys (l.map Prod.fst)
    · rw [if_pos hm]
      have hlk : mapLookup l k ≠ none := (mem_map_fst_iff_lookup l k).1 (hperm.subset hm)
      cases hp : mapLookup l k with
      | none => exact absurd hp hlk
      | some p =>
        rw [entryValAt, hp, entryAt, hp]
        rfl
    · rw [if_neg hm]
      have hlk : mapLookup l k = none := by
        rw [mapLookup_eq_none_iff]
        intro hc
        exact hm (hperm.mem_iff.2 hc)
      rw [entryAt, hlk]
      rfl

/-- A singleton well-formed lockfile for the C2 counterexample. -/
def rtLock : BerryLockfile := [(("a@^1.0.0").data, ⟨0, wfEntry⟩)]

/-- C2 counterexample: decoding the encoder's output for `rtLock` succeeds
but yields a canonical map whose key set is strictly larger than the encoded
one: the header's `__metadata` block comes back as an entry (version `"5"`),
while the encoded map has no such key.  The claimed key-set equality fails. -/
theorem C2_counterexample :
    (∃ m, DecodeBerryLockfile (Encode rtLock) = Except.ok m ∧
      entryAt m (("__metadata").data) = some metaEntry) ∧
    entryAt rtLock (("__metadata").data) = none := by
  exact ⟨⟨_, rfl, by decide⟩, by decide⟩

theorem C2_witness :
    lockfileWF wfLock = true ∧
      ∃ m, DecodeBerryLockfile (Encode wfLock) = Except.ok m ∧
        entryAt m (("__metadata").data) = some metaEntry ∧
        ∀ k, k ≠ ("__metadata").data → entryAt m k = entryAt wfLock k :=
  ⟨by decide, C2_roundtrip_amended wfLock (by decide) (by decide)⟩
